import Mathlib

/-!
Verification of the tradeit matching engine and strategy layer.

The definitions below are a shallow embedding of the C++ sources:
`OrderBook.cpp` (matching, insertion, cancellation), `market_maker.cpp`,
`momentum_trader.cpp` and `arbitrage_trader.cpp`.  Prices are modelled as
rationals, quantities and ids as naturals, timestamps as naturals
(microseconds).  `std::map` price levels become sorted association lists
(`bids` descending, `asks` ascending); `std::unordered_map` becomes an
association list with unique keys; the book mutex and worker threads are
modelled by a sequential interleaving of the guarded step functions.
-/

namespace Tradeit

/-- Association-list lookup, mirroring `std::unordered_map::find`. -/
def lookupKey {κ α : Type} [DecidableEq κ] (k : κ) : List (κ × α) → Option α
  | [] => none
  | (k', v) :: rest => if k' = k then some v else lookupKey k rest

/-- Association-list assignment, mirroring `map[k] = v` (replace or append). -/
def insertKey {κ α : Type} [DecidableEq κ] (k : κ) (v : α) : List (κ × α) → List (κ × α)
  | [] => [(k, v)]
  | (k', v') :: rest => if k' = k then (k, v) :: rest else (k', v') :: insertKey k v rest

/-- Association-list removal, mirroring `map.erase(k)`. -/
def eraseKey {κ α : Type} [DecidableEq κ] (k : κ) : List (κ × α) → List (κ × α)
  | [] => []
  | (k', v') :: rest => if k' = k then rest else (k', v') :: eraseKey k rest

/-- Lookup with a default, mirroring `map[k]` read with value-initialisation. -/
def getKeyD {κ α : Type} [DecidableEq κ] (k : κ) (d : α) (m : List (κ × α)) : α :=
  (lookupKey k m).getD d

/-- Keys of an association list. -/
def mapKeys {κ α : Type} (m : List (κ × α)) : List κ := m.map (·.1)

/-- `core::Side`. -/
inductive Side where
  | buy
  | sell
deriving DecidableEq

/-- `core::OrderType`. -/
inductive OrderType where
  | market
  | limit
deriving DecidableEq

/-- `core::Order` (order.hpp). -/
structure Order where
  id : Nat
  instrument : String
  type : OrderType
  side : Side
  price : ℚ
  quantity : Nat
  timestamp : Nat
deriving DecidableEq

/-- `core::Trade` (trade.hpp). -/
structure Trade where
  trade_id : Nat
  buy_order_id : Nat
  sell_order_id : Nat
  instrument : String
  price : ℚ
  quantity : Nat
  timestamp : Nat
  side : Side
deriving DecidableEq

/-- One price level: the `std::map` key together with its `std::deque` of orders. -/
abbrev Level : Type := ℚ × List Order

/-- The id index `orders_` of the book. -/
abbrev OrdersMap : Type := List (Nat × Order)

/-- `engine::OrderBook` state (order_book.hpp): `bids_` sorted by price
descending, `asks_` ascending, `orders_` id index, `next_trade_id_`. -/
structure OrderBook where
  instrument : String
  bids : List Level
  asks : List Level
  orders : OrdersMap
  next_trade_id : Nat
deriving DecidableEq

/-- A freshly constructed book (`OrderBook::OrderBook`). -/
def emptyBook (instrument : String) : OrderBook :=
  { instrument := instrument, bids := [], asks := [], orders := [], next_trade_id := 1 }

/-- Result of matching against one price level (the inner `while` of
`OrderBook::match`). -/
structure LevelMatch where
  trades : List Trade
  queue : List Order
  orders : OrdersMap
  qty : Nat
  tid : Nat
deriving DecidableEq

/-- Inner loop of `OrderBook::match`: consume the queue of one price level.
`aggId`/`aggTs`/`aggSide` are the aggressor's fields, `price` is the level's
key, `qty` the aggressor's remaining quantity, `tid` the trade-id counter.
A resting order is popped (and erased from the id index) when fully consumed;
otherwise its queue entry's quantity is reduced in place. -/
def matchLevel (aggId aggTs : Nat) (aggSide : Side) (instr : String) (price : ℚ) :
    List Order → OrdersMap → Nat → Nat → LevelMatch
  | [], orders, qty, tid => ⟨[], [], orders, qty, tid⟩
  | r :: rest, orders, qty, tid =>
    if qty = 0 then ⟨[], r :: rest, orders, qty, tid⟩
    else
      let traded := min qty r.quantity
      let t : Trade :=
        if aggSide = Side.buy then
          ⟨tid, aggId, r.id, instr, price, traded, aggTs, Side.buy⟩
        else
          ⟨tid, r.id, aggId, instr, price, traded, aggTs, Side.sell⟩
      if traded = r.quantity then
        let res := matchLevel aggId aggTs aggSide instr price rest
          (eraseKey r.id orders) (qty - traded) (tid + 1)
        ⟨t :: res.trades, res.queue, res.orders, res.qty, res.tid⟩
      else
        ⟨[t], { r with quantity := r.quantity - traded } :: rest, orders, qty - traded, tid + 1⟩

/-- Result of matching against a whole side of the book (the outer `while`
of `OrderBook::match`). -/
structure BookMatch where
  trades : List Trade
  levels : List Level
  orders : OrdersMap
  qty : Nat
  tid : Nat
deriving DecidableEq

/-- Outer loop of `OrderBook::match`: walk the opposite side best level
first, dropping a level when its queue empties.  Note: no comparison with
the aggressor's limit price occurs anywhere in this loop. -/
def matchBook (aggId aggTs : Nat) (aggSide : Side) (instr : String) :
    List Level → OrdersMap → Nat → Nat → BookMatch
  | [], orders, qty, tid => ⟨[], [], orders, qty, tid⟩
  | (p, queue) :: rest, orders, qty, tid =>
    if qty = 0 then ⟨[], (p, queue) :: rest, orders, qty, tid⟩
    else
      let lm := matchLevel aggId aggTs aggSide instr p queue orders qty tid
      if lm.queue = [] then
        let bm := matchBook aggId aggTs aggSide instr rest lm.orders lm.qty lm.tid
        ⟨lm.trades ++ bm.trades, bm.levels, bm.orders, bm.qty, bm.tid⟩
      else
        ⟨lm.trades, (p, lm.queue) :: rest, lm.orders, lm.qty, lm.tid⟩

/-- `OrderBook::match`: a BUY aggressor consumes `asks_`, a SELL aggressor
consumes `bids_`.  Returns the updated book and the emitted trades. -/
def OrderBook.matchOrder (b : OrderBook) (o : Order) : OrderBook × List Trade :=
  if o.side = Side.buy then
    let bm := matchBook o.id o.timestamp Side.buy b.instrument b.asks b.orders o.quantity b.next_trade_id
    ({ b with asks := bm.levels, orders := bm.orders, next_trade_id := bm.tid }, bm.trades)
  else
    let bm := matchBook o.id o.timestamp Side.sell b.instrument b.bids b.orders o.quantity b.next_trade_id
    ({ b with bids := bm.levels, orders := bm.orders, next_trade_id := bm.tid }, bm.trades)

/-- Insert into an ascending `std::map` of levels (`asks_[price].push_back`). -/
def insertAsc (o : Order) : List Level → List Level
  | [] => [(o.price, [o])]
  | (p, queue) :: rest =>
    if o.price < p then (o.price, [o]) :: (p, queue) :: rest
    else if o.price = p then (p, queue ++ [o]) :: rest
    else (p, queue) :: insertAsc o rest

/-- Insert into a descending `std::map` of levels (`bids_[price].push_back`). -/
def insertDesc (o : Order) : List Level → List Level
  | [] => [(o.price, [o])]
  | (p, queue) :: rest =>
    if p < o.price then (o.price, [o]) :: (p, queue) :: rest
    else if o.price = p then (p, queue ++ [o]) :: rest
    else (p, queue) :: insertDesc o rest

/-- `OrderBook::insertLimitOrder`: append to the side queue at the order's
price and record the order in the id index. -/
def OrderBook.insertLimitOrder (b : OrderBook) (o : Order) : OrderBook :=
  if o.side = Side.buy then
    { b with bids := insertDesc o b.bids, orders := insertKey o.id o b.orders }
  else
    { b with asks := insertAsc o b.asks, orders := insertKey o.id o b.orders }

/-- The crossing test of `OrderBook::addOrder`: MARKET, or LIMIT BUY priced
at or above the best ask, or LIMIT SELL priced at or below the best bid. -/
def OrderBook.crosses (b : OrderBook) (o : Order) : Bool :=
  o.type = OrderType.market ||
    (o.type = OrderType.limit &&
      ((o.side = Side.buy &&
          match b.asks with
          | [] => false
          | (p, _) :: _ => decide (p ≤ o.price)) ||
        (o.side = Side.sell &&
          match b.bids with
          | [] => false
          | (p, _) :: _ => decide (o.price ≤ p))))

/-- `OrderBook::addOrder`: a crossing order is matched and its trades
returned — the matched remainder is NOT re-inserted; a non-crossing LIMIT
order is rested via `insertLimitOrder`. -/
def OrderBook.addOrder (b : OrderBook) (o : Order) : OrderBook × List Trade :=
  if b.crosses o then b.matchOrder o
  else if o.type = OrderType.limit then (b.insertLimitOrder o, [])
  else (b, [])

/-- Remove the first order with the given id from one deque
(`queue.erase(q_it)` in `OrderBook::cancelOrder`); `none` if absent. -/
def removeFromQueue (id : Nat) : List Order → Option (List Order)
  | [] => none
  | o :: rest =>
    if o.id = id then some rest
    else (removeFromQueue id rest).map (o :: ·)

/-- Scan the levels of one side for the id, removing it and dropping the
level if its queue becomes empty; `none` if the id is on neither level. -/
def cancelLevels (id : Nat) : List Level → Option (List Level)
  | [] => none
  | (p, queue) :: rest =>
    match removeFromQueue id queue with
    | some queue' => some (if queue' = [] then rest else (p, queue') :: rest)
    | none => (cancelLevels id rest).map ((p, queue) :: ·)

/-- `OrderBook::cancelOrder`: search bids then asks; on success erase the
order from its queue (dropping an emptied level) and from the id index and
return `true`; otherwise leave the book unchanged and return `false`. -/
def OrderBook.cancelOrder (b : OrderBook) (id : Nat) : OrderBook × Bool :=
  match cancelLevels id b.bids with
  | some bids' => ({ b with bids := bids', orders := eraseKey id b.orders }, true)
  | none =>
    match cancelLevels id b.asks with
    | some asks' => ({ b with asks := asks', orders := eraseKey id b.orders }, true)
    | none => (b, false)

/-- `OrderBook::getBestBid`: front order of the first bid level. -/
def OrderBook.getBestBid (b : OrderBook) : Option Order :=
  match b.bids with
  | [] => none
  | (_, queue) :: _ => queue.head?

/-- `OrderBook::getBestAsk`: front order of the first ask level. -/
def OrderBook.getBestAsk (b : OrderBook) : Option Order :=
  match b.asks with
  | [] => none
  | (_, queue) :: _ => queue.head?

/-- Ids of all orders resting in the queues of a list of levels, in queue
order. -/
def queueIds (levels : List Level) : List Nat :=
  levels.flatMap (fun l => l.2.map Order.id)

/-- Ids of all orders resting in the book (bids then asks). -/
def OrderBook.restingIds (b : OrderBook) : List Nat :=
  queueIds b.bids ++ queueIds b.asks

/-- An operation submitted to the book: `addOrder` or `cancelOrder`. -/
inductive BookOp where
  | add (o : Order)
  | cancel (id : Nat)
deriving DecidableEq

/-- Apply one book operation, discarding the returned trades / flag. -/
def applyOp (b : OrderBook) : BookOp → OrderBook
  | BookOp.add o => (b.addOrder o).1
  | BookOp.cancel id => (b.cancelOrder id).1

/-- Run a sequence of book operations. -/
def runOps (b : OrderBook) (ops : List BookOp) : OrderBook :=
  ops.foldl applyOp b

/-- Ids introduced by the `add` operations of a sequence. -/
def addIds : List BookOp → List Nat
  | [] => []
  | BookOp.add o :: rest => o.id :: addIds rest
  | BookOp.cancel _ :: rest => addIds rest

/-- Sum of the quantities of the orders resting in the side queues. -/
def queueQty (levels : List Level) : Nat :=
  (levels.flatMap (fun l => l.2.map Order.quantity)).sum

/-- Sum of the quantities recorded in the id index `orders_`. -/
def ordersQty (m : OrdersMap) : Nat :=
  (m.map (fun e => e.2.quantity)).sum

/-- `strategy::MarketMaker` state (market_maker.hpp members; report sinks
and the worker-thread handle are omitted, the clock is a parameter). -/
structure MMState where
  symbol : String
  max_loss : ℚ
  inventory : ℤ := 0
  inventory_limit : ℤ := 10
  realized_pnl : ℚ := 0
  running : Bool := false
  risk_violated : Bool := false
  current_bid_id : Nat := 0
  current_ask_id : Nat := 0
  order_id_counter : Nat := 1
  active_orders : OrdersMap := []
  filled_quantity : List (Nat × Nat) := []
  total_quotes : Nat := 0
  total_trades : Nat := 0
  total_quantity : Nat := 0
  peak_pnl : ℚ := 0
  max_drawdown : ℚ := 0
  recent_market_orders : List Order := []
deriving DecidableEq

/-- `MarketMaker::MarketMaker` followed by nothing: the constructed state. -/
def MMState.init (symbol : String) (max_loss : ℚ) : MMState :=
  { symbol := symbol, max_loss := max_loss }

/-- `MarketMaker::start` (thread spawn and log opening omitted). -/
def MMState.start (s : MMState) : MMState :=
  { s with running := true }

/-- `MarketMaker::onMarketData`: buffer the last 100 orders of the symbol. -/
def MMState.onMarketData (s : MMState) (o : Order) : MMState :=
  if o.instrument ≠ s.symbol then s
  else
    let l := s.recent_market_orders ++ [o]
    { s with recent_market_orders := if 100 < l.length then l.drop 1 else l }

/-- `MarketMaker::onTrade`: count every trade of the symbol, attribute fills
of own orders to inventory / PnL / `total_quantity_`, update drawdown, and
latch `risk_violated_` (clearing `running_`) when a limit is breached. -/
def MMState.onTrade (s : MMState) (t : Trade) : MMState :=
  if t.instrument ≠ s.symbol then s
  else
    let s1 := { s with total_trades := s.total_trades + 1 }
    let s2 :=
      match lookupKey t.buy_order_id s1.active_orders with
      | some own =>
        let f := getKeyD t.buy_order_id 0 s1.filled_quantity + t.quantity
        let s' := { s1 with
          filled_quantity := insertKey t.buy_order_id f s1.filled_quantity,
          inventory := s1.inventory + t.quantity,
          realized_pnl := s1.realized_pnl - t.price * t.quantity,
          total_quantity := s1.total_quantity + t.quantity }
        if own.quantity ≤ f then
          { s' with active_orders := eraseKey t.buy_order_id s'.active_orders,
                    filled_quantity := eraseKey t.buy_order_id s'.filled_quantity }
        else s'
      | none => s1
    let s3 :=
      match lookupKey t.sell_order_id s2.active_orders with
      | some own =>
        let f := getKeyD t.sell_order_id 0 s2.filled_quantity + t.quantity
        let s' := { s2 with
          filled_quantity := insertKey t.sell_order_id f s2.filled_quantity,
          inventory := s2.inventory - t.quantity,
          realized_pnl := s2.realized_pnl + t.price * t.quantity,
          total_quantity := s2.total_quantity + t.quantity }
        if own.quantity ≤ f then
          { s' with active_orders := eraseKey t.sell_order_id s'.active_orders,
                    filled_quantity := eraseKey t.sell_order_id s'.filled_quantity }
        else s'
      | none => s2
    let peak := max s3.peak_pnl s3.realized_pnl
    let s4 := { s3 with peak_pnl := peak,
                        max_drawdown := max s3.max_drawdown (peak - s3.realized_pnl) }
    if s4.realized_pnl ≤ s4.max_loss ∨ s4.inventory_limit < |s4.inventory| then
      { s4 with risk_violated := true, running := false }
    else s4

/-- `MarketMaker::computeMidPrice`: mid of best bid and ask, `-1` if a side
is missing. -/
def MMState.computeMidPrice (book : OrderBook) : ℚ :=
  match book.getBestBid, book.getBestAsk with
  | some bb, some ba => (bb.price + ba.price) / 2
  | _, _ => -1

/-- The staleness test of `MarketMaker::placeQuotes`: an absent order is
stale; a present one is stale when expired (age above 500 ms) or drifted
(price moved by more than 0.02 from the new target). -/
def cancelIfStale (actives : OrdersMap) (now : Nat) (id : Nat) (newPrice : ℚ) : Bool :=
  match lookupKey id actives with
  | none => true
  | some old =>
    decide (old.timestamp + 500000 < now) || decide (2 / 100 < |old.price - newPrice|)

/-- Stale-bid handling of `placeQuotes`: submit a cancellation-intent order
(same id, quantity 0) and clear the slot. -/
def MMState.cancelBidSlot (s : MMState) (now : Nat) (bid_price : ℚ) : MMState × List Order :=
  if cancelIfStale s.active_orders now s.current_bid_id bid_price then
    ({ s with active_orders := eraseKey s.current_bid_id s.active_orders,
              filled_quantity := eraseKey s.current_bid_id s.filled_quantity,
              current_bid_id := 0 },
      [Order.mk s.current_bid_id s.symbol OrderType.limit Side.buy 0 0 0])
  else (s, [])

/-- Stale-ask handling of `placeQuotes`. -/
def MMState.cancelAskSlot (s : MMState) (now : Nat) (ask_price : ℚ) : MMState × List Order :=
  if cancelIfStale s.active_orders now s.current_ask_id ask_price then
    ({ s with active_orders := eraseKey s.current_ask_id s.active_orders,
              filled_quantity := eraseKey s.current_ask_id s.filled_quantity,
              current_ask_id := 0 },
      [Order.mk s.current_ask_id s.symbol OrderType.limit Side.sell 0 0 0])
  else (s, [])

/-- Bid replacement of `placeQuotes`: submit a fresh LIMIT BUY quote when
the slot is empty. -/
def MMState.placeBidSlot (s : MMState) (now : Nat) (bid_price : ℚ) (qty : Nat) :
    MMState × List Order :=
  if s.current_bid_id = 0 then
    let bid := Order.mk s.order_id_counter s.symbol OrderType.limit Side.buy bid_price qty now
    ({ s with order_id_counter := s.order_id_counter + 1,
              active_orders := insertKey bid.id bid s.active_orders,
              filled_quantity := insertKey bid.id 0 s.filled_quantity,
              current_bid_id := bid.id },
      [bid])
  else (s, [])

/-- Ask replacement of `placeQuotes`. -/
def MMState.placeAskSlot (s : MMState) (now : Nat) (ask_price : ℚ) (qty : Nat) :
    MMState × List Order :=
  if s.current_ask_id = 0 then
    let ask := Order.mk s.order_id_counter s.symbol OrderType.limit Side.sell ask_price qty now
    ({ s with order_id_counter := s.order_id_counter + 1,
              active_orders := insertKey ask.id ask s.active_orders,
              filled_quantity := insertKey ask.id 0 s.filled_quantity,
              current_ask_id := ask.id },
      [ask])
  else (s, [])

/-- `MarketMaker::placeQuotes`, with the wall clock passed in as `now`
(microseconds).  Returns the new state and the orders pushed through the
submit callback, in submission order: stale-quote cancellation intents
(quantity 0) first, then replacement quotes.  Note the unconditional
`total_quotes_ += 2` at the end of the quoting path. -/
def MMState.placeQuotes (s : MMState) (book : OrderBook) (now : Nat) :
    MMState × List Order :=
  if s.realized_pnl ≤ s.max_loss ∨ s.inventory_limit < |s.inventory| then
    ({ s with risk_violated := true, running := false }, [])
  else
    let s := { s with risk_violated := false }
    let mid := MMState.computeMidPrice book
    if mid < 0 then (s, [])
    else
      let spread : ℚ :=
        match book.getBestBid, book.getBestAsk with
        | some bb, some ba => max (1 / 100) ((ba.price - bb.price) / 2)
        | _, _ => 1 / 20
      let bid_price := mid - spread
      let ask_price := mid + spread
      let qty : Nat := 1
      let step1 := s.cancelBidSlot now bid_price
      let step2 := step1.1.cancelAskSlot now ask_price
      let step3 := step2.1.placeBidSlot now bid_price qty
      let step4 := step3.1.placeAskSlot now ask_price qty
      ({ step4.1 with total_quotes := step4.1.total_quotes + 2 },
        step1.2 ++ step2.2 ++ step3.2 ++ step4.2)

/-- `average_trade_size` accessor shared by the strategies. -/
def MMState.averageTradeSize (s : MMState) : ℚ :=
  if 0 < s.total_trades then (s.total_quantity : ℚ) / (s.total_trades : ℚ) else 0

/-- One sequential step of the MarketMaker within a lifetime: a worker
iteration (`run` calls `placeQuotes` only while `running_`), a trade report,
or a market-data event. -/
inductive MMEvent where
  | quoteCycle (book : OrderBook) (now : Nat)
  | trade (t : Trade)
  | marketData (o : Order)

/-- Apply one MarketMaker event. -/
def MMState.step (s : MMState) : MMEvent → MMState
  | MMEvent.quoteCycle book now => if s.running then (s.placeQuotes book now).1 else s
  | MMEvent.trade t => s.onTrade t
  | MMEvent.marketData o => s.onMarketData o

/-- Run a sequence of MarketMaker events. -/
def MMState.run (s : MMState) (es : List MMEvent) : MMState :=
  es.foldl MMState.step s

/-- `strategy::MomentumTrader` state (momentum_trader.hpp members; the
global order-id counter is carried in the state, the clock is a parameter). -/
structure MomState where
  symbol : String
  max_loss : ℚ
  running : Bool := false
  risk_violated : Bool := false
  position : ℤ := 0
  realized_pnl : ℚ := 0
  recent_prices : List ℚ := []
  cooldown_end : Nat := 0
  peak_pnl : ℚ := 0
  max_drawdown : ℚ := 0
  total_trades : Nat := 0
  total_quantity : Nat := 0
  gid : Nat := 1
deriving DecidableEq

/-- Constructed MomentumTrader. -/
def MomState.init (symbol : String) (max_loss : ℚ) : MomState :=
  { symbol := symbol, max_loss := max_loss }

/-- `MomentumTrader::start`. -/
def MomState.start (s : MomState) : MomState :=
  { s with running := true }

/-- `MomentumTrader::onMarketData`: buffer the last 5 prices of the symbol. -/
def MomState.onMarketData (s : MomState) (o : Order) : MomState :=
  if o.instrument ≠ s.symbol then s
  else
    let l := s.recent_prices ++ [o.price]
    { s with recent_prices := if 5 < l.length then l.drop 1 else l }

/-- `MomentumTrader::onTrade`: heuristic direction by id comparison, PnL,
drawdown, and the risk latch (`stop()` clears `running_`). -/
def MomState.onTrade (s : MomState) (t : Trade) : MomState :=
  if t.instrument ≠ s.symbol then s
  else
    let qty : ℤ := if t.buy_order_id < t.sell_order_id then (t.quantity : ℤ) else -(t.quantity : ℤ)
    let pnl : ℚ := (qty : ℚ) * t.price * (-1)
    let s1 := { s with
      position := s.position + qty,
      realized_pnl := s.realized_pnl + pnl,
      total_trades := s.total_trades + 1,
      total_quantity := s.total_quantity + t.quantity }
    let peak := max s1.peak_pnl s1.realized_pnl
    let s2 := { s1 with peak_pnl := peak,
                        max_drawdown := max s1.max_drawdown (peak - s1.realized_pnl) }
    if s2.realized_pnl < s2.max_loss then
      { s2 with risk_violated := true, running := false }
    else s2

/-- `MomentumTrader::evaluateMomentum` with the clock passed as `now`:
needs at least 3 buffered prices and an elapsed cooldown, then submits one
MARKET order in the signal direction and re-arms the cooldown. -/
def MomState.evaluateMomentum (s : MomState) (now : Nat) : MomState × List Order :=
  if s.recent_prices.length < 3 then (s, [])
  else
    let current := s.recent_prices.getLastD 0
    let average := (s.recent_prices.dropLast.sum) / ((s.recent_prices.length : ℚ) - 1)
    if now < s.cooldown_end then (s, [])
    else
      let action := if average < current then Side.buy else Side.sell
      let o := Order.mk s.gid s.symbol OrderType.market action current 1 now
      ({ s with gid := s.gid + 1, cooldown_end := now + 1000000 }, [o])

/-- One sequential step of the MomentumTrader within a lifetime. -/
inductive MomEvent where
  | workerIter (now : Nat)
  | trade (t : Trade)
  | marketData (o : Order)

/-- Apply one MomentumTrader event (`run` evaluates only while `running_`). -/
def MomState.step (s : MomState) : MomEvent → MomState
  | MomEvent.workerIter now => if s.running then (s.evaluateMomentum now).1 else s
  | MomEvent.trade t => s.onTrade t
  | MomEvent.marketData o => s.onMarketData o

/-- Run a sequence of MomentumTrader events. -/
def MomState.run (s : MomState) (es : List MomEvent) : MomState :=
  es.foldl MomState.step s

/-- `strategy::ArbitrageTrader` state (arbitrage_trader.hpp members; the
global order-id counter is carried in the state, the clock is a parameter). -/
structure ArbState where
  symbol1 : String
  symbol2 : String
  spread_threshold : ℚ
  order_size : ℤ
  max_loss : ℚ
  running : Bool := false
  best_bid : List (String × ℚ) := []
  best_ask : List (String × ℚ) := []
  positions : List (String × ℤ) := []
  realized_pnl : ℚ := 0
  total_trades : Nat := 0
  total_quantity : Nat := 0
  peak_pnl : ℚ := 0
  max_drawdown : ℚ := 0
  risk_violated : Bool := false
  gid : Nat := 1
deriving DecidableEq

/-- Constructed ArbitrageTrader (`spread_` and `order_size_` are stored). -/
def ArbState.init (a1 a2 : String) (spread : ℚ) (order_size : ℤ) (max_loss : ℚ) : ArbState :=
  { symbol1 := a1, symbol2 := a2, spread_threshold := spread,
    order_size := order_size, max_loss := max_loss }

/-- `ArbitrageTrader::start`. -/
def ArbState.start (s : ArbState) : ArbState :=
  { s with running := true }

/-- Overwrite only the stored constructor parameter `spread_` of an
ArbitrageTrader state: the two states differ in nothing else. -/
def ArbState.setSpread (s : ArbState) (x : ℚ) : ArbState :=
  { s with spread_threshold := x }

/-- `ArbitrageTrader::checkArbitrageOpportunity` with the clock passed as
`now`: requires quotes on all four sides; fires each leg pair when the
cross-spread exceeds the hardcoded `0.05`; `spread_` is never consulted. -/
def ArbState.checkArbitrageOpportunity (s : ArbState) (now : Nat) : ArbState × List Order :=
  match lookupKey s.symbol1 s.best_ask, lookupKey s.symbol2 s.best_bid,
      lookupKey s.symbol2 s.best_ask, lookupKey s.symbol1 s.best_bid with
  | some ask1, some bid2, some ask2, some bid1 =>
    let threshold : ℚ := 1 / 20
    let fire1 :=
      if threshold < bid2 - ask1 then
        ({ s with gid := s.gid + 2 },
          [Order.mk s.gid s.symbol1 OrderType.limit Side.buy ask1 10 now,
            Order.mk (s.gid + 1) s.symbol2 OrderType.limit Side.sell bid2 10 now])
      else (s, ([] : List Order))
    let s := fire1.1
    let fire2 :=
      if threshold < bid1 - ask2 then
        ({ s with gid := s.gid + 2 },
          [Order.mk s.gid s.symbol2 OrderType.limit Side.buy ask2 10 now,
            Order.mk (s.gid + 1) s.symbol1 OrderType.limit Side.sell bid1 10 now])
      else (s, ([] : List Order))
    (fire2.1, fire1.2 ++ fire2.2)
  | _, _, _, _ => (s, [])

/-- `ArbitrageTrader::onMarketData`: update the observed quotes (BUY raises
`best_bid_` through `max` with a value-initialised default, SELL lowers
`best_ask_`), then check the opportunity. -/
def ArbState.onMarketData (s : ArbState) (o : Order) (now : Nat) : ArbState × List Order :=
  if s.running = false then (s, [])
  else
    let s :=
      if o.side = Side.buy then
        { s with best_bid :=
            insertKey o.instrument (max (getKeyD o.instrument 0 s.best_bid) o.price) s.best_bid }
      else
        match lookupKey o.instrument s.best_ask with
        | none => { s with best_ask := insertKey o.instrument o.price s.best_ask }
        | some a =>
          if o.price < a then { s with best_ask := insertKey o.instrument o.price s.best_ask }
          else s
    s.checkArbitrageOpportunity now

/-- `ArbitrageTrader::onTrade`: position and PnL per pair leg, trade and
quantity counters for every trade, drawdown, risk latch via `stop()`. -/
def ArbState.onTrade (s : ArbState) (t : Trade) : ArbState :=
  if s.running = false then s
  else
    let branch : ArbState × ℚ :=
      if t.instrument = s.symbol1 then
        let qty : ℤ := if t.side = Side.buy then (t.quantity : ℤ) else -(t.quantity : ℤ)
        ({ s with positions :=
            insertKey s.symbol1 (getKeyD s.symbol1 0 s.positions + qty) s.positions },
          (qty : ℚ) * t.price)
      else if t.instrument = s.symbol2 then
        let qty : ℤ := if t.side = Side.buy then (t.quantity : ℤ) else -(t.quantity : ℤ)
        ({ s with positions :=
            insertKey s.symbol2 (getKeyD s.symbol2 0 s.positions + qty) s.positions },
          (qty : ℚ) * t.price)
      else (s, (0 : ℚ))
    let s1 : ArbState := { branch.1 with
      realized_pnl := branch.1.realized_pnl + branch.2,
      total_trades := branch.1.total_trades + 1,
      total_quantity := branch.1.total_quantity + t.quantity }
    let peak : ℚ := max s1.peak_pnl s1.realized_pnl
    let s2 : ArbState := { s1 with
      peak_pnl := peak,
      max_drawdown := max s1.max_drawdown (peak - s1.realized_pnl) }
    if s2.realized_pnl < s2.max_loss then
      { s2 with risk_violated := true, running := false }
    else s2

/-- One sequential step of the ArbitrageTrader within a lifetime. -/
inductive ArbEvent where
  | marketData (o : Order) (now : Nat)
  | trade (t : Trade)

/-- Apply one ArbitrageTrader event, collecting submitted orders. -/
def ArbState.step (s : ArbState) : ArbEvent → ArbState × List Order
  | ArbEvent.marketData o now => s.onMarketData o now
  | ArbEvent.trade t => (s.onTrade t, [])

/-- Run a sequence of ArbitrageTrader events, accumulating all submitted
orders in submission order. -/
def ArbState.run (s : ArbState) : List ArbEvent → ArbState × List Order
  | [] => (s, [])
  | e :: es =>
    let r := s.step e
    let rest := r.1.run es
    (rest.1, r.2 ++ rest.2)

/-- Erase a list of keys from an association list, in order. -/
def eraseKeys {κ α : Type} [DecidableEq κ] (m : List (κ × α)) (ks : List κ) : List (κ × α) :=
  ks.foldl (fun m k => eraseKey k m) m

/-- All orders resting in a list of levels, in queue order. -/
def restingOf (levels : List Level) : List Order :=
  levels.flatMap (·.2)

/-- The id of the resting (passive) party of a trade, given the aggressor's
side: the sell order for a BUY aggressor, the buy order for a SELL one. -/
def restingIdOf (aggSide : Side) (t : Trade) : Nat :=
  if aggSide = Side.buy then t.sell_order_id else t.buy_order_id

/-- Book well-formedness: no duplicate resting ids, no duplicate index
keys, and the resting ids are exactly the index keys. -/
def wfB (b : OrderBook) : Prop :=
  b.restingIds.Nodup ∧ (mapKeys b.orders).Nodup ∧
    (∀ i ∈ b.restingIds, i ∈ mapKeys b.orders) ∧
    (∀ i ∈ mapKeys b.orders, i ∈ b.restingIds)

/-- Book price coherence: every queued order's price equals its level key. -/
def wellPriced (b : OrderBook) : Prop :=
  (∀ l ∈ b.bids, ∀ o ∈ l.2, o.price = l.1) ∧
    (∀ l ∈ b.asks, ∀ o ∈ l.2, o.price = l.1)

/-- C1 data: two resting ask levels, 10 and 20. -/
def bookC1 : OrderBook :=
  (((emptyBook "E").addOrder ⟨1, "E", OrderType.limit, Side.sell, 10, 1, 1⟩).1.addOrder
    ⟨2, "E", OrderType.limit, Side.sell, 20, 1, 2⟩).1

/-- C1 data: a BUY LIMIT aggressor at 10 for quantity 2. -/
def aggC1 : Order := ⟨3, "E", OrderType.limit, Side.buy, 10, 2, 3⟩

/-- C1 data: the trades addOrder emits for the aggressor. -/
def tradesC1 : List Trade := (bookC1.addOrder aggC1).2

/-- C2 data: one resting ask of quantity 1 at 100. -/
def bookC2 : OrderBook :=
  ((emptyBook "E").addOrder ⟨1, "E", OrderType.limit, Side.sell, 100, 1, 1⟩).1

/-- C2 data: a crossing BUY LIMIT aggressor at 100 for quantity 2 (only 1
can fill). -/
def aggC2 : Order := ⟨2, "E", OrderType.limit, Side.buy, 100, 2, 2⟩

/-- C3 data: a reachable state after a partial fill — rest SELL 2 @ 100,
then a MARKET BUY of 1 fills half of it. -/
def bookC3 : OrderBook :=
  runOps (emptyBook "E")
    [BookOp.add ⟨1, "E", OrderType.limit, Side.sell, 100, 2, 1⟩,
      BookOp.add ⟨2, "E", OrderType.market, Side.buy, 0, 1, 2⟩]

/-- C4 witness data: an external trade that leaves MarketMaker PnL at 0,
breaching a `max_loss` of 0. -/
def tradeC4mm : Trade := ⟨1, 41, 42, "A", 5, 1, 10, Side.buy⟩

/-- C4 witness data: a trade that books -5 PnL on the MomentumTrader. -/
def tradeC4mom : Trade := ⟨1, 1, 2, "A", 5, 1, 10, Side.buy⟩

/-- C4 witness data: a SELL-side trade that books -5 PnL on the
ArbitrageTrader. -/
def tradeC4arb : Trade := ⟨1, 1, 2, "A", 5, 1, 10, Side.sell⟩

/-- C5 data: a book quoted 99 x 101 by other participants. -/
def bookC5 : OrderBook :=
  { instrument := "E",
    bids := [(99, [⟨90, "E", OrderType.limit, Side.buy, 99, 1, 900⟩])],
    asks := [(101, [⟨91, "E", OrderType.limit, Side.sell, 101, 1, 901⟩])],
    orders := [(90, ⟨90, "E", OrderType.limit, Side.buy, 99, 1, 900⟩),
      (91, ⟨91, "E", OrderType.limit, Side.sell, 101, 1, 901⟩)],
    next_trade_id := 1 }

/-- C5 data: a MarketMaker whose bid and ask slots hold fresh quotes at the
prices the current cycle would quote again. -/
def mmC5 : MMState :=
  { symbol := "E", max_loss := -50, running := true,
    current_bid_id := 7, current_ask_id := 8, order_id_counter := 9,
    active_orders :=
      [(7, ⟨7, "E", OrderType.limit, Side.buy, 99, 1, 1000⟩),
        (8, ⟨8, "E", OrderType.limit, Side.sell, 101, 1, 1000⟩)],
    filled_quantity := [(7, 0), (8, 0)] }

/-- C6 data: a quantity-0 LIMIT BUY at price 0, the shape of MarketMaker's
cancellation-intent orders. -/
def ordC6 : Order := ⟨5, "E", OrderType.limit, Side.buy, 0, 0, 0⟩

/-- C7 witness data: a book with one well-priced resting ask. -/
def bookC7 : OrderBook :=
  ((emptyBook "E").addOrder ⟨1, "E", OrderType.limit, Side.sell, 10, 3, 1⟩).1

/-- C7 witness data: a MARKET BUY aggressor. -/
def aggC7 : Order := ⟨2, "E", OrderType.market, Side.buy, 0, 2, 5⟩

/-- C7 witness data: the single trade the aggressor produces. -/
def tradeC7 : Trade := ⟨1, 2, 1, "E", 10, 2, 5, Side.buy⟩

/-- C8 witness data: a book holding two resting orders. -/
def bookC8 : OrderBook :=
  (((emptyBook "E").addOrder ⟨1, "E", OrderType.limit, Side.buy, 99, 1, 1⟩).1.addOrder
    ⟨2, "E", OrderType.limit, Side.sell, 101, 2, 2⟩).1

/-- C10 data: a trade on the strategy's symbol between two foreign orders. -/
def tradeC10 : Trade := ⟨1, 41, 42, "E", 100, 7, 10, Side.buy⟩

/-- C10 data: a fresh started MarketMaker after witnessing only the foreign
trade. -/
def mmC10 : MMState := ((MMState.init "E" (-100)).start).onTrade tradeC10

/-!  Helper lemmas about the association-list primitives. -/

theorem mapKeys_nil {κ α : Type} : mapKeys ([] : List (κ × α)) = [] := rfl

theorem mapKeys_cons {κ α : Type} (k : κ) (v : α) (m : List (κ × α)) :
    mapKeys ((k, v) :: m) = k :: mapKeys m := rfl

theorem eraseKeys_nil {κ α : Type} [DecidableEq κ] (m : List (κ × α)) :
    eraseKeys m [] = m := rfl

theorem eraseKeys_cons {κ α : Type} [DecidableEq κ] (m : List (κ × α)) (k : κ) (ks : List κ) :
    eraseKeys m (k :: ks) = eraseKeys (eraseKey k m) ks := rfl

theorem eraseKeys_append {κ α : Type} [DecidableEq κ] (m : List (κ × α)) (ks1 ks2 : List κ) :
    eraseKeys m (ks1 ++ ks2) = eraseKeys (eraseKeys m ks1) ks2 := by
  simp [eraseKeys, List.foldl_append]

theorem mem_mapKeys_eraseKey_of {κ α : Type} [DecidableEq κ] {a k : κ} {m : List (κ × α)}
    (h : a ∈ mapKeys (eraseKey k m)) : a ∈ mapKeys m := by
  induction m with
  | nil => exact absurd h (by simp [eraseKey, mapKeys])
  | cons e rest ih =>
    obtain ⟨k2, v2⟩ := e
    by_cases hk : k2 = k
    · rw [eraseKey, if_pos hk] at h
      rw [mapKeys_cons]
      exact List.mem_cons_of_mem _ h
    · rw [eraseKey, if_neg hk, mapKeys_cons] at h
      rw [mapKeys_cons]
      rcases List.mem_cons.mp h with h | h
      · exact List.mem_cons.mpr (Or.inl h)
      · exact List.mem_cons_of_mem _ (ih h)

theorem mem_mapKeys_eraseKey {κ α : Type} [DecidableEq κ] {a k : κ} {m : List (κ × α)}
    (hnd : (mapKeys m).Nodup) :
    a ∈ mapKeys (eraseKey k m) ↔ a ∈ mapKeys m ∧ a ≠ k := by
  induction m with
  | nil => simp [eraseKey, mapKeys_nil]
  | cons e rest ih =>
    obtain ⟨k2, v2⟩ := e
    rw [mapKeys_cons, List.nodup_cons] at hnd
    by_cases hk : k2 = k
    · subst hk
      rw [eraseKey, if_pos rfl, mapKeys_cons]
      constructor
      · intro h
        refine ⟨List.mem_cons_of_mem _ h, fun hak => ?_⟩
        exact hnd.1 (hak ▸ h)
      · rintro ⟨h, hne⟩
        rcases List.mem_cons.mp h with h | h
        · exact absurd h hne
        · exact h
    · rw [eraseKey, if_neg hk, mapKeys_cons, mapKeys_cons, List.mem_cons, List.mem_cons,
        ih hnd.2]
      constructor
      · rintro (rfl | ⟨h, hne⟩)
        · exact ⟨Or.inl rfl, hk⟩
        · exact ⟨Or.inr h, hne⟩
      · rintro ⟨h | h, hne⟩
        · exact Or.inl h
        · exact Or.inr ⟨h, hne⟩

theorem nodup_mapKeys_eraseKey {κ α : Type} [DecidableEq κ] {k : κ} {m : List (κ × α)}
    (hnd : (mapKeys m).Nodup) : (mapKeys (eraseKey k m)).Nodup := by
  induction m with
  | nil => simp [eraseKey, mapKeys_nil]
  | cons e rest ih =>
    obtain ⟨k2, v2⟩ := e
    rw [mapKeys_cons, List.nodup_cons] at hnd
    by_cases hk : k2 = k
    · rw [eraseKey, if_pos hk]
      exact hnd.2
    · rw [eraseKey, if_neg hk, mapKeys_cons, List.nodup_cons]
      exact ⟨fun h => hnd.1 (mem_mapKeys_eraseKey_of h), ih hnd.2⟩

theorem mem_mapKeys_eraseKeys_of {κ α : Type} [DecidableEq κ] {a : κ} {m : List (κ × α)}
    {ks : List κ} (h : a ∈ mapKeys (eraseKeys m ks)) : a ∈ mapKeys m := by
  induction ks generalizing m with
  | nil => exact h
  | cons k ks ih =>
    rw [eraseKeys_cons] at h
    exact mem_mapKeys_eraseKey_of (ih h)

theorem nodup_mapKeys_eraseKeys {κ α : Type} [DecidableEq κ] {m : List (κ × α)} {ks : List κ}
    (hnd : (mapKeys m).Nodup) : (mapKeys (eraseKeys m ks)).Nodup := by
  induction ks generalizing m with
  | nil => exact hnd
  | cons k ks ih =>
    rw [eraseKeys_cons]
    exact ih (nodup_mapKeys_eraseKey hnd)

theorem mem_mapKeys_eraseKeys {κ α : Type} [DecidableEq κ] {a : κ} {m : List (κ × α)}
    {ks : List κ} (hnd : (mapKeys m).Nodup) :
    a ∈ mapKeys (eraseKeys m ks) ↔ a ∈ mapKeys m ∧ a ∉ ks := by
  induction ks generalizing m with
  | nil => simp [eraseKeys_nil]
  | cons k ks ih =>
    rw [eraseKeys_cons, ih (nodup_mapKeys_eraseKey hnd), mem_mapKeys_eraseKey hnd]
    constructor
    · rintro ⟨⟨h, hne⟩, hnk⟩
      refine ⟨h, fun hm => ?_⟩
      rcases List.mem_cons.mp hm with rfl | hm
      · exact hne rfl
      · exact hnk hm
    · rintro ⟨h, hnk⟩
      exact ⟨⟨h, fun hak => hnk (hak ▸ List.mem_cons_self k ks)⟩,
        fun hm => hnk (List.mem_cons_of_mem _ hm)⟩

theorem mapKeys_insertKey {κ α : Type} [DecidableEq κ] (k : κ) (v : α) (m : List (κ × α)) :
    mapKeys (insertKey k v m) =
      if k ∈ mapKeys m then mapKeys m else mapKeys m ++ [k] := by
  induction m with
  | nil => simp [insertKey, mapKeys]
  | cons e rest ih =>
    obtain ⟨k2, v2⟩ := e
    by_cases hk : k2 = k
    · subst hk
      rw [insertKey, if_pos rfl, mapKeys_cons, mapKeys_cons]
      rw [if_pos (List.mem_cons_self _ _)]
    · rw [insertKey, if_neg hk, mapKeys_cons, mapKeys_cons, ih]
      have hne : ¬(k = k2) := fun h => hk h.symm
      by_cases hkm : k ∈ mapKeys rest
      · rw [if_pos hkm, if_pos (List.mem_cons_of_mem _ hkm)]
      · rw [if_neg hkm, if_neg (by
          intro h
          rcases List.mem_cons.mp h with h | h
          · exact hne h
          · exact hkm h)]
        rfl

/-!  Lemmas about the match loops. -/

theorem matchBook_zero (aggId aggTs : Nat) (aggSide : Side) (instr : String)
    (levels : List Level) (orders : OrdersMap) (tid : Nat) :
    matchBook aggId aggTs aggSide instr levels orders 0 tid =
      ⟨[], levels, orders, 0, tid⟩ := by
  cases levels with
  | nil => rfl
  | cons l rest =>
    obtain ⟨p, queue⟩ := l
    simp [matchBook]

theorem matchOrder_zero (b : OrderBook) (o : Order) (hq : o.quantity = 0) :
    b.matchOrder o = (b, []) := by
  rw [OrderBook.matchOrder]
  by_cases hs : o.side = Side.buy
  · rw [if_pos hs, hq, matchBook_zero]
  · rw [if_neg hs, hq, matchBook_zero]

theorem matchLevel_ids (aggId aggTs : Nat) (aggSide : Side) (instr : String) (price : ℚ) :
    ∀ (queue : List Order) (orders : OrdersMap) (qty tid : Nat),
      ∃ rem : List Nat,
        queue.map Order.id =
          rem ++ (matchLevel aggId aggTs aggSide instr price queue orders qty tid).queue.map Order.id ∧
        (matchLevel aggId aggTs aggSide instr price queue orders qty tid).orders =
          eraseKeys orders rem := by
  intro queue
  induction queue with
  | nil => intro orders qty tid; exact ⟨[], by simp [matchLevel], rfl⟩
  | cons r rest ih =>
    intro orders qty tid
    by_cases hq : qty = 0
    · refine ⟨[], ?_, ?_⟩
      · simp [matchLevel, hq]
      · simp only [matchLevel]
        rw [if_pos hq, eraseKeys_nil]
    · by_cases ht : min qty r.quantity = r.quantity
      · obtain ⟨rem, hids, hord⟩ :=
          ih (eraseKey r.id orders) (qty - min qty r.quantity) (tid + 1)
        refine ⟨r.id :: rem, ?_, ?_⟩
        · simp only [matchLevel]
          rw [if_neg hq, if_pos ht]
          simp only [List.map_cons, List.cons_append]
          exact congrArg (r.id :: ·) hids
        · simp only [matchLevel]
          rw [if_neg hq, if_pos ht, eraseKeys_cons]
          exact hord
      · refine ⟨[], ?_, ?_⟩
        · simp only [matchLevel]
          rw [if_neg hq, if_neg ht]
          simp
        · simp only [matchLevel]
          rw [if_neg hq, if_neg ht, eraseKeys_nil]

theorem queueIds_nil : queueIds [] = [] := rfl

theorem queueIds_cons (p : ℚ) (q : List Order) (ls : List Level) :
    queueIds ((p, q) :: ls) = q.map Order.id ++ queueIds ls := by
  simp [queueIds]

theorem matchBook_ids (aggId aggTs : Nat) (aggSide : Side) (instr : String) :
    ∀ (levels : List Level) (orders : OrdersMap) (qty tid : Nat),
      ∃ rem : List Nat,
        queueIds levels =
          rem ++ queueIds (matchBook aggId aggTs aggSide instr levels orders qty tid).levels ∧
        (matchBook aggId aggTs aggSide instr levels orders qty tid).orders =
          eraseKeys orders rem := by
  intro levels
  induction levels with
  | nil => intro orders qty tid; exact ⟨[], by simp [matchBook, queueIds], rfl⟩
  | cons l rest ih =>
    obtain ⟨p, queue⟩ := l
    intro orders qty tid
    by_cases hq : qty = 0
    · refine ⟨[], ?_, ?_⟩
      · simp [matchBook, hq]
      · simp only [matchBook]
        rw [if_pos hq, eraseKeys_nil]
    · obtain ⟨rem1, hids1, hord1⟩ := matchLevel_ids aggId aggTs aggSide instr p queue orders qty tid
      set lm := matchLevel aggId aggTs aggSide instr p queue orders qty tid with hlm
      by_cases hlq : lm.queue = []
      · obtain ⟨rem2, hids2, hord2⟩ := ih lm.orders lm.qty lm.tid
        have h1 : queue.map Order.id = rem1 := by
          rw [hids1, hlq]
          simp
        refine ⟨rem1 ++ rem2, ?_, ?_⟩
        · simp only [matchBook]
          rw [if_neg hq, ← hlm, if_pos hlq, queueIds_cons, h1, hids2, List.append_assoc]
        · simp only [matchBook]
          rw [if_neg hq, ← hlm, if_pos hlq, eraseKeys_append, ← hord1]
          exact hord2
      · refine ⟨rem1, ?_, ?_⟩
        · simp only [matchBook]
          rw [if_neg hq, ← hlm, if_neg hlq, queueIds_cons, queueIds_cons, hids1,
            List.append_assoc]
        · simp only [matchBook]
          rw [if_neg hq, ← hlm, if_neg hlq]
          exact hord1

/-!  Lemmas about limit-order insertion and cancellation. -/

theorem queueIds_insertAsc (o : Order) :
    ∀ ls : List Level, ∃ A B : List Nat,
      queueIds ls = A ++ B ∧ queueIds (insertAsc o ls) = A ++ o.id :: B := by
  intro ls
  induction ls with
  | nil => exact ⟨[], [], by simp [queueIds], by simp [insertAsc, queueIds]⟩
  | cons l rest ih =>
    obtain ⟨p, queue⟩ := l
    by_cases h1 : o.price < p
    · refine ⟨[], queueIds ((p, queue) :: rest), rfl, ?_⟩
      rw [insertAsc, if_pos h1, queueIds_cons]
      simp
    · by_cases h2 : o.price = p
      · refine ⟨queue.map Order.id, queueIds rest, queueIds_cons p queue rest, ?_⟩
        rw [insertAsc, if_neg h1, if_pos h2, queueIds_cons]
        simp
      · obtain ⟨A, B, hAB, hins⟩ := ih
        refine ⟨queue.map Order.id ++ A, B, ?_, ?_⟩
        · rw [queueIds_cons, hAB, List.append_assoc]
        · rw [insertAsc, if_neg h1, if_neg h2, queueIds_cons, hins, List.append_assoc]

theorem queueIds_insertDesc (o : Order) :
    ∀ ls : List Level, ∃ A B : List Nat,
      queueIds ls = A ++ B ∧ queueIds (insertDesc o ls) = A ++ o.id :: B := by
  intro ls
  induction ls with
  | nil => exact ⟨[], [], by simp [queueIds], by simp [insertDesc, queueIds]⟩
  | cons l rest ih =>
    obtain ⟨p, queue⟩ := l
    by_cases h1 : p < o.price
    · refine ⟨[], queueIds ((p, queue) :: rest), rfl, ?_⟩
      rw [insertDesc, if_pos h1, queueIds_cons]
      simp
    · by_cases h2 : o.price = p
      · refine ⟨queue.map Order.id, queueIds rest, queueIds_cons p queue rest, ?_⟩
        rw [insertDesc, if_neg h1, if_pos h2, queueIds_cons]
        simp
      · obtain ⟨A, B, hAB, hins⟩ := ih
        refine ⟨queue.map Order.id ++ A, B, ?_, ?_⟩
        · rw [queueIds_cons, hAB, List.append_assoc]
        · rw [insertDesc, if_neg h1, if_neg h2, queueIds_cons, hins, List.append_assoc]

theorem removeFromQueue_none {id : Nat} :
    ∀ {q : List Order}, removeFromQueue id q = none → id ∉ q.map Order.id := by
  intro q
  induction q with
  | nil => intro _; simp
  | cons o rest ih =>
    intro h
    by_cases ho : o.id = id
    · rw [removeFromQueue, if_pos ho] at h
      exact absurd h (by simp)
    · rw [removeFromQueue, if_neg ho] at h
      have hrest : removeFromQueue id rest = none := by
        cases hr : removeFromQueue id rest with
        | none => rfl
        | some q2 => rw [hr] at h; exact absurd h (by simp)
      simp only [List.map_cons, List.mem_cons]
      rintro (h2 | h2)
      · exact ho h2.symm
      · exact ih hrest h2

theorem removeFromQueue_some {id : Nat} :
    ∀ {q q' : List Order}, removeFromQueue id q = some q' →
      ∃ A B : List Nat, q.map Order.id = A ++ id :: B ∧ q'.map Order.id = A ++ B := by
  intro q
  induction q with
  | nil => intro q' h; exact absurd h (by simp [removeFromQueue])
  | cons o rest ih =>
    intro q' h
    by_cases ho : o.id = id
    · rw [removeFromQueue, if_pos ho] at h
      refine ⟨[], rest.map Order.id, ?_, ?_⟩
      · simp [ho]
      · simp [← Option.some_inj.mp h]
    · rw [removeFromQueue, if_neg ho] at h
      cases hr : removeFromQueue id rest with
      | none => rw [hr] at h; exact absurd h (by simp)
      | some q2 =>
        rw [hr] at h
        obtain ⟨A, B, hAB, hq2⟩ := ih hr
        have hq' : q' = o :: q2 := by
          simpa using h.symm
        refine ⟨o.id :: A, B, ?_, ?_⟩
        · simp [hAB]
        · simp [hq', hq2]

theorem cancelLevels_none {id : Nat} :
    ∀ {ls : List Level}, cancelLevels id ls = none → id ∉ queueIds ls := by
  intro ls
  induction ls with
  | nil => intro _; simp [queueIds]
  | cons l rest ih =>
    obtain ⟨p, queue⟩ := l
    intro h
    rw [cancelLevels] at h
    cases hr : removeFromQueue id queue with
    | some q2 => rw [hr] at h; exact absurd h (by simp)
    | none =>
      rw [hr] at h
      have hrest : cancelLevels id rest = none := by
        cases hc : cancelLevels id rest with
        | none => rfl
        | some ls2 => rw [hc] at h; exact absurd h (by simp)
      rw [queueIds_cons]
      simp only [List.mem_append]
      rintro (h2 | h2)
      · exact removeFromQueue_none hr h2
      · exact ih hrest h2

theorem cancelLevels_some {id : Nat} :
    ∀ {ls ls' : List Level}, cancelLevels id ls = some ls' →
      ∃ A B : List Nat, queueIds ls = A ++ id :: B ∧ queueIds ls' = A ++ B := by
  intro ls
  induction ls with
  | nil => intro ls' h; exact absurd h (by simp [cancelLevels])
  | cons l rest ih =>
    obtain ⟨p, queue⟩ := l
    intro ls' h
    rw [cancelLevels] at h
    cases hr : removeFromQueue id queue with
    | some q2 =>
      rw [hr] at h
      obtain ⟨A, B, hAB, hq2⟩ := removeFromQueue_some hr
      have hls' : ls' = if q2 = [] then rest else (p, q2) :: rest := by
        simpa using h.symm
      refine ⟨A, B ++ queueIds rest, ?_, ?_⟩
      · rw [queueIds_cons, hAB]
        simp
      · subst hls'
        by_cases hq2e : q2 = []
        · rw [if_pos hq2e]
          have : q2.map Order.id = [] := by simp [hq2e]
          rw [this] at hq2
          have hA : A ++ B = [] := hq2.symm
          rcases List.append_eq_nil.mp hA with ⟨hA1, hB1⟩
          simp [hA1, hB1]
        · rw [if_neg hq2e, queueIds_cons, hq2, List.append_assoc]
    | none =>
      rw [hr] at h
      cases hc : cancelLevels id rest with
      | none => rw [hc] at h; exact absurd h (by simp)
      | some ls2 =>
        rw [hc] at h
        obtain ⟨A, B, hAB, hls2⟩ := ih hc
        have hls' : ls' = (p, queue) :: ls2 := by simpa using h.symm
        refine ⟨queue.map Order.id ++ A, B, ?_, ?_⟩
        · rw [queueIds_cons, hAB, List.append_assoc]
        · rw [hls', queueIds_cons, hls2, List.append_assoc]

theorem cancelLevels_keeps_nonempty {id : Nat} :
    ∀ {ls ls' : List Level}, cancelLevels id ls = some ls' →
      (∀ l ∈ ls, l.2 ≠ []) → ∀ l ∈ ls', l.2 ≠ [] := by
  intro ls
  induction ls with
  | nil => intro ls' h; exact absurd h (by simp [cancelLevels])
  | cons l rest ih =>
    obtain ⟨p, queue⟩ := l
    intro ls' h hne
    rw [cancelLevels] at h
    cases hr : removeFromQueue id queue with
    | some q2 =>
      rw [hr] at h
      have hls' : ls' = if q2 = [] then rest else (p, q2) :: rest := by
        simpa using h.symm
      subst hls'
      by_cases hq2e : q2 = []
      · rw [if_pos hq2e]
        intro l hl
        exact hne l (List.mem_cons_of_mem _ hl)
      · rw [if_neg hq2e]
        intro l hl
        rcases List.mem_cons.mp hl with rfl | hl
        · exact hq2e
        · exact hne l (List.mem_cons_of_mem _ hl)
    | none =>
      rw [hr] at h
      cases hc : cancelLevels id rest with
      | none => rw [hc] at h; exact absurd h (by simp)
      | some ls2 =>
        rw [hc] at h
        have hls' : ls' = (p, queue) :: ls2 := by simpa using h.symm
        subst hls'
        intro l hl
        rcases List.mem_cons.mp hl with rfl | hl
        · exact hne _ (List.mem_cons_self _ _)
        · exact ih hc (fun l2 hl2 => hne l2 (List.mem_cons_of_mem _ hl2)) l hl

/-!  Well-formedness of the book under its operations. -/

theorem nodup_drop_block {X rem S : List Nat} (hnd : (X ++ (rem ++ S)).Nodup) :
    (X ++ S).Nodup :=
  List.Nodup.sublist ((List.sublist_append_right rem S).append_left X) hnd

theorem mem_drop_block {X rem S : List Nat} (hnd : (X ++ (rem ++ S)).Nodup) (i : Nat) :
    i ∈ X ++ S ↔ i ∈ X ++ (rem ++ S) ∧ i ∉ rem := by
  rcases List.nodup_append.mp hnd with ⟨hX, hRS, hdisj⟩
  rcases List.nodup_append.mp hRS with ⟨hR, hS, hdisj2⟩
  simp only [List.mem_append]
  constructor
  · rintro (h | h)
    · exact ⟨Or.inl h, fun hr => hdisj h (List.mem_append.mpr (Or.inl hr))⟩
    · exact ⟨Or.inr (Or.inr h), fun hr => hdisj2 hr h⟩
  · rintro ⟨h | h, hnr⟩
    · exact Or.inl h
    · rcases h with h | h
      · exact absurd h hnr
      · exact Or.inr h

theorem wf_matchOrder {b : OrderBook} {o : Order} (hwf : wfB b) :
    wfB (b.matchOrder o).1 ∧
      ∀ i ∈ (b.matchOrder o).1.restingIds, i ∈ b.restingIds := by
  obtain ⟨hnd, hndk, h34⟩ := hwf
  rw [OrderBook.matchOrder]
  by_cases hs : o.side = Side.buy
  · rw [if_pos hs]
    obtain ⟨rem, hids, hord⟩ :=
      matchBook_ids o.id o.timestamp Side.buy b.instrument b.asks b.orders o.quantity b.next_trade_id
    set bm := matchBook o.id o.timestamp Side.buy b.instrument b.asks b.orders o.quantity b.next_trade_id
    have hres : ({ b with
        asks := bm.levels,
        orders := bm.orders,
        next_trade_id := bm.tid } : OrderBook).restingIds =
        queueIds b.bids ++ queueIds bm.levels := rfl
    have horig : b.restingIds = queueIds b.bids ++ (rem ++ queueIds bm.levels) := by
      rw [OrderBook.restingIds, hids]
    rw [horig] at hnd
    have hmem := fun i => mem_drop_block hnd i
    have hkeys : ∀ i, i ∈ mapKeys bm.orders ↔ i ∈ mapKeys b.orders ∧ i ∉ rem := by
      intro i
      rw [hord]
      exact mem_mapKeys_eraseKeys hndk
    refine ⟨⟨?_, ?_, ?_, ?_⟩, ?_⟩
    · rw [hres]
      exact nodup_drop_block hnd
    · show (mapKeys bm.orders).Nodup
      rw [hord]
      exact nodup_mapKeys_eraseKeys hndk
    · intro i hi
      rw [hres] at hi
      rcases (hmem i).mp hi with ⟨hi2, hnr⟩
      rw [hkeys]
      exact ⟨h34.1 i (horig ▸ hi2), hnr⟩
    · intro i hi
      rcases (hkeys i).mp hi with ⟨hi2, hnr⟩
      have := h34.2 i hi2
      rw [horig] at this
      rw [hres]
      exact (hmem i).mpr ⟨this, hnr⟩
    · intro i hi
      rw [hres] at hi
      rcases (hmem i).mp hi with ⟨hi2, _⟩
      exact horig ▸ hi2
  · rw [if_neg hs]
    obtain ⟨rem, hids, hord⟩ :=
      matchBook_ids o.id o.timestamp Side.sell b.instrument b.bids b.orders o.quantity b.next_trade_id
    set bm := matchBook o.id o.timestamp Side.sell b.instrument b.bids b.orders o.quantity b.next_trade_id
    have hres : ({ b with
        bids := bm.levels,
        orders := bm.orders,
        next_trade_id := bm.tid } : OrderBook).restingIds =
        [] ++ (queueIds bm.levels ++ queueIds b.asks) := by
      simp [OrderBook.restingIds]
    have horig : b.restingIds = [] ++ (rem ++ (queueIds bm.levels ++ queueIds b.asks)) := by
      rw [OrderBook.restingIds, hids]
      simp [List.append_assoc]
    rw [horig] at hnd
    have hmem := fun i => mem_drop_block hnd i
    have hkeys : ∀ i, i ∈ mapKeys bm.orders ↔ i ∈ mapKeys b.orders ∧ i ∉ rem := by
      intro i
      rw [hord]
      exact mem_mapKeys_eraseKeys hndk
    refine ⟨⟨?_, ?_, ?_, ?_⟩, ?_⟩
    · rw [hres]
      exact nodup_drop_block hnd
    · show (mapKeys bm.orders).Nodup
      rw [hord]
      exact nodup_mapKeys_eraseKeys hndk
    · intro i hi
      rw [hres] at hi
      rcases (hmem i).mp hi with ⟨hi2, hnr⟩
      rw [hkeys]
      exact ⟨h34.1 i (horig ▸ hi2), hnr⟩
    · intro i hi
      rcases (hkeys i).mp hi with ⟨hi2, hnr⟩
      have := h34.2 i hi2
      rw [horig] at this
      rw [hres]
      exact (hmem i).mpr ⟨this, hnr⟩
    · intro i hi
      rw [hres] at hi
      rcases (hmem i).mp hi with ⟨hi2, _⟩
      exact horig ▸ hi2

theorem mem_middle_iff {i a : Nat} {A B : List Nat} :
    i ∈ A ++ a :: B ↔ i = a ∨ i ∈ A ++ B := by
  simp only [List.mem_append, List.mem_cons]
  tauto

theorem wf_insertLimitOrder {b : OrderBook} {o : Order} (hwf : wfB b)
    (hfresh : o.id ∉ b.restingIds) :
    wfB (b.insertLimitOrder o) ∧
      ∀ i ∈ (b.insertLimitOrder o).restingIds, i = o.id ∨ i ∈ b.restingIds := by
  obtain ⟨hnd, hndk, h3, h4⟩ := hwf
  have hknotin : o.id ∉ mapKeys b.orders := fun h => hfresh (h4 o.id h)
  have hkeys : mapKeys (insertKey o.id o b.orders) = mapKeys b.orders ++ [o.id] := by
    rw [mapKeys_insertKey, if_neg hknotin]
  have hkmem : ∀ i, i ∈ mapKeys (insertKey o.id o b.orders) ↔
      i ∈ mapKeys b.orders ∨ i = o.id := by
    intro i
    rw [hkeys]
    simp
  have hknd : (mapKeys (insertKey o.id o b.orders)).Nodup := by
    rw [hkeys, List.nodup_append]
    refine ⟨hndk, List.nodup_singleton _, ?_⟩
    intro a ha hb
    rw [List.mem_singleton] at hb
    exact hknotin (hb ▸ ha)
  rw [OrderBook.insertLimitOrder]
  by_cases hs : o.side = Side.buy
  · rw [if_pos hs]
    obtain ⟨A, B, hAB, hins⟩ := queueIds_insertDesc o b.bids
    have horig : b.restingIds = A ++ (B ++ queueIds b.asks) := by
      rw [OrderBook.restingIds, hAB, List.append_assoc]
    have hres : ({ b with
        bids := insertDesc o b.bids,
        orders := insertKey o.id o b.orders } : OrderBook).restingIds =
        A ++ o.id :: (B ++ queueIds b.asks) := by
      show queueIds (insertDesc o b.bids) ++ queueIds b.asks =
        A ++ o.id :: (B ++ queueIds b.asks)
      rw [hins]
      simp
    have hmemr : ∀ i, i ∈ A ++ o.id :: (B ++ queueIds b.asks) ↔
        i = o.id ∨ i ∈ A ++ (B ++ queueIds b.asks) := fun i => mem_middle_iff
    refine ⟨⟨?_, ?_, ?_, ?_⟩, ?_⟩
    · rw [hres, List.nodup_middle, List.nodup_cons]
      exact ⟨horig ▸ hfresh, horig ▸ hnd⟩
    · exact hknd
    · intro i hi
      rw [hres] at hi
      show i ∈ mapKeys (insertKey o.id o b.orders)
      rw [hkmem i]
      rcases (hmemr i).mp hi with rfl | hi2
      · exact Or.inr rfl
      · exact Or.inl (h3 i (horig ▸ hi2))
    · intro i hi
      rw [hres]
      have hi2 : i ∈ mapKeys (insertKey o.id o b.orders) := hi
      rcases (hkmem i).mp hi2 with hi3 | rfl
      · exact (hmemr i).mpr (Or.inr (horig ▸ h4 i hi3))
      · exact (hmemr o.id).mpr (Or.inl rfl)
    · intro i hi
      rw [hres] at hi
      rw [horig]
      exact (hmemr i).mp hi
  · rw [if_neg hs]
    obtain ⟨A, B, hAB, hins⟩ := queueIds_insertAsc o b.asks
    have horig : b.restingIds = (queueIds b.bids ++ A) ++ B := by
      rw [OrderBook.restingIds, hAB, List.append_assoc]
    have hres : ({ b with
        asks := insertAsc o b.asks,
        orders := insertKey o.id o b.orders } : OrderBook).restingIds =
        (queueIds b.bids ++ A) ++ o.id :: B := by
      show queueIds b.bids ++ queueIds (insertAsc o b.asks) =
        (queueIds b.bids ++ A) ++ o.id :: B
      rw [hins]
      simp
    have hmemr : ∀ i, i ∈ (queueIds b.bids ++ A) ++ o.id :: B ↔
        i = o.id ∨ i ∈ (queueIds b.bids ++ A) ++ B := fun i => mem_middle_iff
    refine ⟨⟨?_, ?_, ?_, ?_⟩, ?_⟩
    · rw [hres, List.nodup_middle, List.nodup_cons]
      exact ⟨horig ▸ hfresh, horig ▸ hnd⟩
    · exact hknd
    · intro i hi
      rw [hres] at hi
      show i ∈ mapKeys (insertKey o.id o b.orders)
      rw [hkmem i]
      rcases (hmemr i).mp hi with rfl | hi2
      · exact Or.inr rfl
      · exact Or.inl (h3 i (horig ▸ hi2))
    · intro i hi
      rw [hres]
      have hi2 : i ∈ mapKeys (insertKey o.id o b.orders) := hi
      rcases (hkmem i).mp hi2 with hi3 | rfl
      · exact (hmemr i).mpr (Or.inr (horig ▸ h4 i hi3))
      · exact (hmemr o.id).mpr (Or.inl rfl)
    · intro i hi
      rw [hres] at hi
      rw [horig]
      exact (hmemr i).mp hi

theorem wf_cancelOrder {b : OrderBook} {id : Nat} (hwf : wfB b) :
    wfB (b.cancelOrder id).1 ∧
      ∀ i ∈ (b.cancelOrder id).1.restingIds, i ∈ b.restingIds := by
  obtain ⟨hnd, hndk, h3, h4⟩ := hwf
  have hkmem : ∀ i, i ∈ mapKeys (eraseKey id b.orders) ↔
      i ∈ mapKeys b.orders ∧ i ≠ id := fun i => mem_mapKeys_eraseKey hndk
  have hknd : (mapKeys (eraseKey id b.orders)).Nodup := nodup_mapKeys_eraseKey hndk
  rw [OrderBook.cancelOrder]
  cases hcb : cancelLevels id b.bids with
  | some bids2 =>
    obtain ⟨A, B, hAB, hB2⟩ := cancelLevels_some hcb
    have horig : b.restingIds = A ++ id :: (B ++ queueIds b.asks) := by
      rw [OrderBook.restingIds, hAB]
      simp
    have hres : ({ b with
        bids := bids2,
        orders := eraseKey id b.orders } : OrderBook).restingIds =
        A ++ (B ++ queueIds b.asks) := by
      show queueIds bids2 ++ queueIds b.asks = A ++ (B ++ queueIds b.asks)
      rw [hB2, List.append_assoc]
    have hid_not : id ∉ A ++ (B ++ queueIds b.asks) := by
      have := horig ▸ hnd
      rw [List.nodup_middle, List.nodup_cons] at this
      exact this.1
    have hmemr : ∀ i, i ∈ A ++ (B ++ queueIds b.asks) ↔
        (i ∈ b.restingIds ∧ i ≠ id) := by
      intro i
      rw [horig]
      constructor
      · intro hi
        refine ⟨mem_middle_iff.mpr (Or.inr hi), ?_⟩
        rintro rfl
        exact hid_not hi
      · rintro ⟨hi, hne⟩
        rcases mem_middle_iff.mp hi with rfl | hi2
        · exact absurd rfl hne
        · exact hi2
    refine ⟨⟨?_, ?_, ?_, ?_⟩, ?_⟩
    · rw [hres]
      have := horig ▸ hnd
      rw [List.nodup_middle, List.nodup_cons] at this
      exact this.2
    · exact hknd
    · intro i hi
      rw [hres] at hi
      rcases (hmemr i).mp hi with ⟨hi2, hne⟩
      show i ∈ mapKeys (eraseKey id b.orders)
      exact (hkmem i).mpr ⟨h3 i hi2, hne⟩
    · intro i hi
      have hi2 : i ∈ mapKeys (eraseKey id b.orders) := hi
      rcases (hkmem i).mp hi2 with ⟨hi3, hne⟩
      rw [hres]
      exact (hmemr i).mpr ⟨h4 i hi3, hne⟩
    · intro i hi
      rw [hres] at hi
      exact ((hmemr i).mp hi).1
  | none =>
    cases hca : cancelLevels id b.asks with
    | some asks2 =>
      obtain ⟨A, B, hAB, hB2⟩ := cancelLevels_some hca
      have horig : b.restingIds = (queueIds b.bids ++ A) ++ id :: B := by
        rw [OrderBook.restingIds, hAB]
        simp
      have hres : ({ b with
          asks := asks2,
          orders := eraseKey id b.orders } : OrderBook).restingIds =
          (queueIds b.bids ++ A) ++ B := by
        show queueIds b.bids ++ queueIds asks2 = (queueIds b.bids ++ A) ++ B
        rw [hB2, List.append_assoc]
      have hid_not : id ∉ (queueIds b.bids ++ A) ++ B := by
        have := horig ▸ hnd
        rw [List.nodup_middle, List.nodup_cons] at this
        exact this.1
      have hmemr : ∀ i, i ∈ (queueIds b.bids ++ A) ++ B ↔
          (i ∈ b.restingIds ∧ i ≠ id) := by
        intro i
        rw [horig]
        constructor
        · intro hi
          refine ⟨mem_middle_iff.mpr (Or.inr hi), ?_⟩
          rintro rfl
          exact hid_not hi
        · rintro ⟨hi, hne⟩
          rcases mem_middle_iff.mp hi with rfl | hi2
          · exact absurd rfl hne
          · exact hi2
      refine ⟨⟨?_, ?_, ?_, ?_⟩, ?_⟩
      · rw [hres]
        have := horig ▸ hnd
        rw [List.nodup_middle, List.nodup_cons] at this
        exact this.2
      · exact hknd
      · intro i hi
        rw [hres] at hi
        rcases (hmemr i).mp hi with ⟨hi2, hne⟩
        show i ∈ mapKeys (eraseKey id b.orders)
        exact (hkmem i).mpr ⟨h3 i hi2, hne⟩
      · intro i hi
        have hi2 : i ∈ mapKeys (eraseKey id b.orders) := hi
        rcases (hkmem i).mp hi2 with ⟨hi3, hne⟩
        rw [hres]
        exact (hmemr i).mpr ⟨h4 i hi3, hne⟩
      · intro i hi
        rw [hres] at hi
        exact ((hmemr i).mp hi).1
    | none =>
      exact ⟨⟨hnd, hndk, h3, h4⟩, fun i hi => hi⟩

theorem wf_addOrder {b : OrderBook} {o : Order} (hwf : wfB b)
    (hfresh : o.id ∉ b.restingIds) :
    wfB (b.addOrder o).1 ∧
      ∀ i ∈ (b.addOrder o).1.restingIds, i = o.id ∨ i ∈ b.restingIds := by
  rw [OrderBook.addOrder]
  by_cases hc : b.crosses o = true
  · rw [if_pos hc]
    obtain ⟨hwf2, hsub⟩ := @wf_matchOrder b o hwf
    exact ⟨hwf2, fun i hi => Or.inr (hsub i hi)⟩
  · rw [if_neg hc]
    by_cases ht : o.type = OrderType.limit
    · rw [if_pos ht]
      exact wf_insertLimitOrder hwf hfresh
    · rw [if_neg ht]
      exact ⟨hwf, fun i hi => Or.inr hi⟩

theorem wf_emptyBook (instr : String) : wfB (emptyBook instr) := by
  refine ⟨List.nodup_nil, List.nodup_nil, ?_, ?_⟩ <;>
    intro i hi <;> exact absurd hi (by simp [emptyBook, OrderBook.restingIds, queueIds, mapKeys])

theorem wf_runOps :
    ∀ (ops : List BookOp) (b : OrderBook), wfB b → (addIds ops).Nodup →
      (∀ i ∈ addIds ops, i ∉ b.restingIds) → wfB (runOps b ops) := by
  intro ops
  induction ops with
  | nil => intro b hwf _ _; exact hwf
  | cons op rest ih =>
    intro b hwf hnd hfresh
    cases op with
    | add o =>
      rw [addIds, List.nodup_cons] at hnd
      have hfo : o.id ∉ b.restingIds := hfresh o.id (by rw [addIds]; exact List.mem_cons_self _ _)
      obtain ⟨hwf2, hsub⟩ := wf_addOrder hwf hfo
      have hstep : runOps b (BookOp.add o :: rest) = runOps (b.addOrder o).1 rest := rfl
      rw [hstep]
      refine ih _ hwf2 hnd.2 ?_
      intro i hi hmem
      rcases hsub i hmem with rfl | hmem2
      · exact hnd.1 hi
      · exact hfresh i (by rw [addIds]; exact List.mem_cons_of_mem _ hi) hmem2
    | cancel cid =>
      rw [addIds] at hnd
      obtain ⟨hwf2, hsub⟩ := @wf_cancelOrder b cid hwf
      have hstep : runOps b (BookOp.cancel cid :: rest) = runOps (b.cancelOrder cid).1 rest := rfl
      rw [hstep]
      refine ih _ hwf2 hnd ?_
      intro i hi hmem
      exact hfresh i (by rw [addIds]; exact hi) (hsub i hmem)

/-!  Where trade prices come from. -/

theorem side_eq_sell_of_ne {s : Side} (h : ¬s = Side.buy) : s = Side.sell := by
  cases s
  · exact absurd rfl h
  · rfl

theorem matchLevel_trades (aggId aggTs : Nat) (aggSide : Side) (instr : String) (price : ℚ) :
    ∀ (queue : List Order) (orders : OrdersMap) (qty tid : Nat),
      ∀ t ∈ (matchLevel aggId aggTs aggSide instr price queue orders qty tid).trades,
        ∃ r ∈ queue, restingIdOf aggSide t = r.id ∧ t.price = price ∧ t.side = aggSide := by
  intro queue
  induction queue with
  | nil => intro orders qty tid t ht; exact absurd ht (by simp [matchLevel])
  | cons r rest ih =>
    intro orders qty tid t ht
    by_cases hq : qty = 0
    · refine absurd ht ?_
      simp only [matchLevel]
      rw [if_pos hq]
      simp
    · by_cases hmin : min qty r.quantity = r.quantity
      · simp only [matchLevel] at ht
        rw [if_neg hq, if_pos hmin] at ht
        rcases List.mem_cons.mp ht with rfl | ht2
        · by_cases hside : aggSide = Side.buy
          · refine ⟨r, List.mem_cons_self _ _, ?_⟩
            rw [if_pos hside]
            simp [restingIdOf, hside]
          · refine ⟨r, List.mem_cons_self _ _, ?_⟩
            rw [if_neg hside]
            simp [restingIdOf, hside, side_eq_sell_of_ne hside]
        · obtain ⟨r2, hr2, hprops⟩ := ih _ _ _ t ht2
          exact ⟨r2, List.mem_cons_of_mem _ hr2, hprops⟩
      · simp only [matchLevel] at ht
        rw [if_neg hq, if_neg hmin] at ht
        rcases List.mem_singleton.mp ht with rfl
        by_cases hside : aggSide = Side.buy
        · refine ⟨r, List.mem_cons_self _ _, ?_⟩
          rw [if_pos hside]
          simp [restingIdOf, hside]
        · refine ⟨r, List.mem_cons_self _ _, ?_⟩
          rw [if_neg hside]
          simp [restingIdOf, hside, side_eq_sell_of_ne hside]

theorem matchBook_trades (aggId aggTs : Nat) (aggSide : Side) (instr : String) :
    ∀ (levels : List Level) (orders : OrdersMap) (qty tid : Nat),
      ∀ t ∈ (matchBook aggId aggTs aggSide instr levels orders qty tid).trades,
        ∃ l ∈ levels, ∃ r ∈ l.2,
          restingIdOf aggSide t = r.id ∧ t.price = l.1 ∧ t.side = aggSide := by
  intro levels
  induction levels with
  | nil => intro orders qty tid t ht; exact absurd ht (by simp [matchBook])
  | cons l rest ih =>
    obtain ⟨p, queue⟩ := l
    intro orders qty tid t ht
    by_cases hq : qty = 0
    · refine absurd ht ?_
      simp only [matchBook]
      rw [if_pos hq]
      simp
    · simp only [matchBook] at ht
      rw [if_neg hq] at ht
      set lm := matchLevel aggId aggTs aggSide instr p queue orders qty tid with hlm
      by_cases hlq : lm.queue = []
      · rw [if_pos hlq] at ht
        rcases List.mem_append.mp ht with ht2 | ht2
        · obtain ⟨r, hr, hid, hp, hsd⟩ := matchLevel_trades aggId aggTs aggSide instr p queue orders qty tid t ht2
          exact ⟨(p, queue), List.mem_cons_self _ _, r, hr, hid, hp, hsd⟩
        · obtain ⟨l2, hl2, hrest⟩ := ih _ _ _ t ht2
          exact ⟨l2, List.mem_cons_of_mem _ hl2, hrest⟩
      · rw [if_neg hlq] at ht
        obtain ⟨r, hr, hid, hp, hsd⟩ := matchLevel_trades aggId aggTs aggSide instr p queue orders qty tid t ht
        exact ⟨(p, queue), List.mem_cons_self _ _, r, hr, hid, hp, hsd⟩

/-!  Risk-latch lemmas for the strategies. -/

theorem mm_onMarketData_fields (s : MMState) (o : Order) :
    (s.onMarketData o).risk_violated = s.risk_violated ∧
      (s.onMarketData o).running = s.running := by
  rw [MMState.onMarketData]
  split
  · exact ⟨rfl, rfl⟩
  · exact ⟨rfl, rfl⟩

theorem mm_onTrade_cases (s : MMState) (t : Trade) :
    ((s.onTrade t).risk_violated = true ∧ (s.onTrade t).running = false) ∨
      ((s.onTrade t).risk_violated = s.risk_violated ∧
        (s.onTrade t).running = s.running) := by
  simp only [MMState.onTrade]
  repeat' first
    | exact Or.inl ⟨rfl, rfl⟩
    | exact Or.inr ⟨rfl, rfl⟩
    | split

/-!  Field preservation of the quoting slot steps. -/

theorem cancelBidSlot_risk_violated (s : MMState) (now : Nat) (p : ℚ) :
    (s.cancelBidSlot now p).1.risk_violated = s.risk_violated := by
  rw [MMState.cancelBidSlot]
  split <;> rfl

theorem cancelBidSlot_running (s : MMState) (now : Nat) (p : ℚ) :
    (s.cancelBidSlot now p).1.running = s.running := by
  rw [MMState.cancelBidSlot]
  split <;> rfl

theorem cancelBidSlot_total_quotes (s : MMState) (now : Nat) (p : ℚ) :
    (s.cancelBidSlot now p).1.total_quotes = s.total_quotes := by
  rw [MMState.cancelBidSlot]
  split <;> rfl

theorem cancelAskSlot_risk_violated (s : MMState) (now : Nat) (p : ℚ) :
    (s.cancelAskSlot now p).1.risk_violated = s.risk_violated := by
  rw [MMState.cancelAskSlot]
  split <;> rfl

theorem cancelAskSlot_running (s : MMState) (now : Nat) (p : ℚ) :
    (s.cancelAskSlot now p).1.running = s.running := by
  rw [MMState.cancelAskSlot]
  split <;> rfl

theorem cancelAskSlot_total_quotes (s : MMState) (now : Nat) (p : ℚ) :
    (s.cancelAskSlot now p).1.total_quotes = s.total_quotes := by
  rw [MMState.cancelAskSlot]
  split <;> rfl

theorem placeBidSlot_risk_violated (s : MMState) (now : Nat) (p : ℚ) (q : Nat) :
    (s.placeBidSlot now p q).1.risk_violated = s.risk_violated := by
  rw [MMState.placeBidSlot]
  split <;> rfl

theorem placeBidSlot_running (s : MMState) (now : Nat) (p : ℚ) (q : Nat) :
    (s.placeBidSlot now p q).1.running = s.running := by
  rw [MMState.placeBidSlot]
  split <;> rfl

theorem placeBidSlot_total_quotes (s : MMState) (now : Nat) (p : ℚ) (q : Nat) :
    (s.placeBidSlot now p q).1.total_quotes = s.total_quotes := by
  rw [MMState.placeBidSlot]
  split <;> rfl

theorem placeAskSlot_risk_violated (s : MMState) (now : Nat) (p : ℚ) (q : Nat) :
    (s.placeAskSlot now p q).1.risk_violated = s.risk_violated := by
  rw [MMState.placeAskSlot]
  split <;> rfl

theorem placeAskSlot_running (s : MMState) (now : Nat) (p : ℚ) (q : Nat) :
    (s.placeAskSlot now p q).1.running = s.running := by
  rw [MMState.placeAskSlot]
  split <;> rfl

theorem placeAskSlot_total_quotes (s : MMState) (now : Nat) (p : ℚ) (q : Nat) :
    (s.placeAskSlot now p q).1.total_quotes = s.total_quotes := by
  rw [MMState.placeAskSlot]
  split <;> rfl

theorem mm_placeQuotes_cases (s : MMState) (book : OrderBook) (now : Nat) :
    ((s.placeQuotes book now).1.risk_violated = true ∧
        (s.placeQuotes book now).1.running = false) ∨
      (s.placeQuotes book now).1.risk_violated = false := by
  rw [MMState.placeQuotes]
  by_cases h1 : s.realized_pnl ≤ s.max_loss ∨ s.inventory_limit < |s.inventory|
  · rw [if_pos h1]
    exact Or.inl ⟨rfl, rfl⟩
  · rw [if_neg h1]
    by_cases h2 : MMState.computeMidPrice book < 0
    · rw [if_pos h2]
      exact Or.inr rfl
    · rw [if_neg h2]
      right
      simp only [placeAskSlot_risk_violated, placeBidSlot_risk_violated,
        cancelAskSlot_risk_violated, cancelBidSlot_risk_violated]

theorem mm_step_preserves (s : MMState) (e : MMEvent)
    (hinv : s.risk_violated = true → s.running = false) :
    ((s.step e).risk_violated = true → (s.step e).running = false) ∧
      (s.risk_violated = true → (s.step e).risk_violated = true) := by
  cases e with
  | quoteCycle book now =>
    rw [MMState.step]
    by_cases hr : s.running = true
    · rw [if_pos hr]
      rcases mm_placeQuotes_cases s book now with ⟨h1, h2⟩ | h1
      · exact ⟨fun _ => h2, fun _ => h1⟩
      · refine ⟨fun h => ?_, fun h => ?_⟩
        · exact absurd h (by simp [h1])
        · exact absurd (hinv h) (by simp [hr])
    · rw [if_neg hr]
      exact ⟨hinv, fun h => h⟩
  | trade t =>
    simp only [MMState.step]
    rcases mm_onTrade_cases s t with ⟨h1, h2⟩ | ⟨h1, h2⟩
    · exact ⟨fun _ => h2, fun _ => h1⟩
    · refine ⟨fun h => ?_, fun h => ?_⟩
      · rw [h2]
        exact hinv (h1 ▸ h)
      · rw [h1]
        exact h
  | marketData o =>
    obtain ⟨h1, h2⟩ := mm_onMarketData_fields s o
    simp only [MMState.step]
    refine ⟨fun h => ?_, fun h => ?_⟩
    · rw [h2]
      exact hinv (h1 ▸ h)
    · rw [h1]
      exact h

theorem mm_run_latch :
    ∀ (es : List MMEvent) (s : MMState),
      (s.risk_violated = true → s.running = false) → s.risk_violated = true →
      (s.run es).risk_violated = true := by
  intro es
  induction es with
  | nil => intro s _ h; exact h
  | cons e rest ih =>
    intro s hinv hrisk
    have hstep := mm_step_preserves s e hinv
    show ((s.step e).run rest).risk_violated = true
    exact ih _ hstep.1 (hstep.2 hrisk)

theorem mom_onMarketData_risk (s : MomState) (o : Order) :
    (s.onMarketData o).risk_violated = s.risk_violated := by
  rw [MomState.onMarketData]
  split <;> rfl

theorem mom_evaluate_risk (s : MomState) (now : Nat) :
    (s.evaluateMomentum now).1.risk_violated = s.risk_violated := by
  rw [MomState.evaluateMomentum]
  split
  · rfl
  · split <;> rfl

theorem mom_onTrade_risk (s : MomState) (t : Trade) (h : s.risk_violated = true) :
    (s.onTrade t).risk_violated = true := by
  simp only [MomState.onTrade]
  repeat' first
    | rfl
    | exact h
    | split

theorem mom_step_risk (s : MomState) (e : MomEvent) (h : s.risk_violated = true) :
    (s.step e).risk_violated = true := by
  cases e with
  | workerIter now =>
    simp only [MomState.step]
    split
    · rw [mom_evaluate_risk]
      exact h
    · exact h
  | trade t =>
    simp only [MomState.step]
    exact mom_onTrade_risk s t h
  | marketData o =>
    simp only [MomState.step]
    rw [mom_onMarketData_risk]
    exact h

theorem mom_run_latch :
    ∀ (es : List MomEvent) (s : MomState), s.risk_violated = true →
      (s.run es).risk_violated = true := by
  intro es
  induction es with
  | nil => intro s h; exact h
  | cons e rest ih =>
    intro s h
    show ((s.step e).run rest).risk_violated = true
    exact ih _ (mom_step_risk s e h)

theorem arb_checkArb_risk (s : ArbState) (now : Nat) :
    (s.checkArbitrageOpportunity now).1.risk_violated = s.risk_violated := by
  simp only [ArbState.checkArbitrageOpportunity]
  repeat' first
    | rfl
    | split

theorem arb_onMarketData_risk (s : ArbState) (o : Order) (now : Nat) :
    (s.onMarketData o now).1.risk_violated = s.risk_violated := by
  simp only [ArbState.onMarketData]
  split
  · rfl
  · split
    · rw [arb_checkArb_risk]
    · split
      · rw [arb_checkArb_risk]
      · split
        · rw [arb_checkArb_risk]
        · rw [arb_checkArb_risk]

theorem arb_onTrade_risk (s : ArbState) (t : Trade) (h : s.risk_violated = true) :
    (s.onTrade t).risk_violated = true := by
  simp only [ArbState.onTrade]
  repeat' first
    | rfl
    | exact h
    | split

theorem arb_step_risk (s : ArbState) (e : ArbEvent) (h : s.risk_violated = true) :
    (s.step e).1.risk_violated = true := by
  cases e with
  | marketData o now =>
    show (s.onMarketData o now).1.risk_violated = true
    rw [arb_onMarketData_risk]
    exact h
  | trade t =>
    show (s.onTrade t, ([] : List Order)).1.risk_violated = true
    exact arb_onTrade_risk s t h

theorem arb_run_latch :
    ∀ (es : List ArbEvent) (s : ArbState), s.risk_violated = true →
      (s.run es).1.risk_violated = true := by
  intro es
  induction es with
  | nil => intro s h; exact h
  | cons e rest ih =>
    intro s h
    show ((s.step e).1.run rest).1.risk_violated = true
    exact ih _ (arb_step_risk s e h)

theorem mm_run_append (s : MMState) (es1 es2 : List MMEvent) :
    s.run (es1 ++ es2) = (s.run es1).run es2 := by
  rw [MMState.run, MMState.run, MMState.run, List.foldl_append]

theorem mom_run_append (s : MomState) (es1 es2 : List MomEvent) :
    s.run (es1 ++ es2) = (s.run es1).run es2 := by
  rw [MomState.run, MomState.run, MomState.run, List.foldl_append]

theorem arb_run_append :
    ∀ (es1 : List ArbEvent) (s : ArbState) (es2 : List ArbEvent),
      (s.run (es1 ++ es2)).1 = ((s.run es1).1.run es2).1 := by
  intro es1
  induction es1 with
  | nil => intro s es2; rfl
  | cons e rest ih =>
    intro s es2
    show (((s.step e).1.run (rest ++ es2))).1 = _
    rw [ih]
    rfl

/-!  The constructor's spread threshold is dead state for the
ArbitrageTrader: every step commutes with overwriting it. -/

theorem arb_checkArb_spread (s : ArbState) (x : ℚ) (now : Nat) :
    ArbState.checkArbitrageOpportunity (s.setSpread x) now =
      ((s.checkArbitrageOpportunity now).1.setSpread x,
        (s.checkArbitrageOpportunity now).2) := by
  cases s
  simp only [ArbState.setSpread, ArbState.checkArbitrageOpportunity]
  repeat' first
    | rfl
    | split

set_option maxHeartbeats 2000000 in
theorem arb_onMarketData_spread (s : ArbState) (x : ℚ) (o : Order) (now : Nat) :
    ArbState.onMarketData (s.setSpread x) o now =
      ((s.onMarketData o now).1.setSpread x, (s.onMarketData o now).2) := by
  obtain ⟨sym1, sym2, spr, osz, ml, run, bb, ba, pos, pnl, tt, tq, pk, dd, rv, g⟩ := s
  simp only [ArbState.setSpread, ArbState.onMarketData]
  by_cases hrun : run = false
  · rw [if_pos hrun, if_pos hrun]
  · rw [if_neg hrun, if_neg hrun]
    by_cases hside : o.side = Side.buy
    · rw [if_pos hside, if_pos hside]
      simp only [ArbState.checkArbitrageOpportunity]
      repeat' first
        | rfl
        | split
    · rw [if_neg hside, if_neg hside]
      cases hl : lookupKey o.instrument ba with
      | none =>
        simp only []
        simp only [ArbState.checkArbitrageOpportunity]
        repeat' first
          | rfl
          | split
      | some a =>
        simp only []
        by_cases hp : o.price < a
        · rw [if_pos hp, if_pos hp]
          simp only [ArbState.checkArbitrageOpportunity]
          repeat' first
            | rfl
            | split
        · rw [if_neg hp, if_neg hp]
          simp only [ArbState.checkArbitrageOpportunity]
          repeat' first
            | rfl
            | split

set_option maxHeartbeats 1000000 in
theorem arb_onTrade_spread (s : ArbState) (x : ℚ) (t : Trade) :
    ArbState.onTrade (s.setSpread x) t = (s.onTrade t).setSpread x := by
  cases s
  simp only [ArbState.setSpread, ArbState.onTrade]
  repeat' first
    | rfl
    | split

theorem arb_step_spread (s : ArbState) (x : ℚ) (e : ArbEvent) :
    ArbState.step (s.setSpread x) e =
      ((s.step e).1.setSpread x, (s.step e).2) := by
  cases e with
  | marketData o now => exact arb_onMarketData_spread s x o now
  | trade t =>
    show (ArbState.onTrade (s.setSpread x) t, ([] : List Order)) = _
    rw [arb_onTrade_spread]
    rfl

theorem arb_run_spread :
    ∀ (es : List ArbEvent) (s : ArbState) (x : ℚ),
      ArbState.run (s.setSpread x) es =
        ((s.run es).1.setSpread x, (s.run es).2) := by
  intro es
  induction es with
  | nil => intro s x; rfl
  | cons e rest ih =>
    intro s x
    show (let r := ArbState.step (s.setSpread x) e
      let rest2 := r.1.run rest
      (rest2.1, r.2 ++ rest2.2)) = _
    rw [arb_step_spread]
    show (let rest2 := ArbState.run ((s.step e).1.setSpread x) rest
      (rest2.1, (s.step e).2 ++ rest2.2)) = _
    rw [ih]
    rfl

theorem mm_run_preserves_inv :
    ∀ (es : List MMEvent) (s : MMState),
      (s.risk_violated = true → s.running = false) →
      ((s.run es).risk_violated = true → (s.run es).running = false) := by
  intro es
  induction es with
  | nil => intro s hinv; exact hinv
  | cons e rest ih =>
    intro s hinv
    show ((s.step e).run rest).risk_violated = true → _
    exact ih _ (mm_step_preserves s e hinv).1

/-!  Claim theorems. -/

/-- Claim C1 counterexample: with resting asks at 10 and 20 and a BUY LIMIT
aggressor at 10 for quantity 2, addOrder emits the trade prices 10 and 20 —
a trade strictly above the aggressor's limit, so matching did not stop at
the first worse-priced opposite level. -/
theorem C1_counterexample :
    tradesC1.map Trade.price = [10, 20] ∧ aggC1.price = 10 ∧
      ∃ t ∈ tradesC1, aggC1.price < t.price := by
  decide

/-- Claim C1 (amended): once an order enters matching, the match loop never
consults the aggressor's limit price: the result of `OrderBook::match` is
invariant under any change of that price, so there is no per-level limit
check and trades can be emitted at prices worse than a LIMIT aggressor's
limit (the limit is consulted only by addOrder's crossing test against the
best opposite level). -/
theorem C1_match_ignores_aggressor_price :
    ∀ (b : OrderBook) (o : Order) (p : ℚ),
      b.matchOrder { o with price := p } = b.matchOrder o := by
  intro b o p
  rfl

/-- Claim C2 counterexample: a BUY LIMIT at 100 for quantity 2 against a
single resting ask of quantity 1 fills partially, but the residual
quantity is not rested: the aggressor's id is in neither the id index nor
the bid side after addOrder returns. -/
theorem C2_counterexample :
    (bookC2.addOrder aggC2).2.map Trade.quantity = [1] ∧
      lookupKey aggC2.id (bookC2.addOrder aggC2).1.orders = none ∧
      (bookC2.addOrder aggC2).1.bids = [] := by
  decide

/-- Claim C2 (amended): when the crossing branch of addOrder is taken, the
unmatched remainder of the aggressor is discarded, not rested: if the
aggressor's id was not already in the book, it is absent from the side
queues and from orders_by_id after addOrder returns. -/
theorem C2_residual_is_discarded :
    ∀ (b : OrderBook) (o : Order), b.crosses o = true →
      o.id ∉ b.restingIds → o.id ∉ mapKeys b.orders →
      o.id ∉ (b.addOrder o).1.restingIds ∧
        o.id ∉ mapKeys (b.addOrder o).1.orders := by
  intro b o hc hat hkeys
  rw [OrderBook.addOrder, if_pos hc, OrderBook.matchOrder]
  by_cases hs : o.side = Side.buy
  · rw [if_pos hs]
    obtain ⟨rem, hids, hord⟩ := matchBook_ids o.id o.timestamp Side.buy b.instrument
      b.asks b.orders o.quantity b.next_trade_id
    constructor
    · show o.id ∉ queueIds b.bids ++ queueIds (matchBook o.id o.timestamp Side.buy
        b.instrument b.asks b.orders o.quantity b.next_trade_id).levels
      intro hmem
      rcases List.mem_append.mp hmem with h | h
      · exact hat (List.mem_append.mpr (Or.inl h))
      · refine hat (List.mem_append.mpr (Or.inr ?_))
        rw [hids]
        exact List.mem_append.mpr (Or.inr h)
    · show o.id ∉ mapKeys (matchBook o.id o.timestamp Side.buy
        b.instrument b.asks b.orders o.quantity b.next_trade_id).orders
      rw [hord]
      intro hmem
      exact hkeys (mem_mapKeys_eraseKeys_of hmem)
  · rw [if_neg hs]
    obtain ⟨rem, hids, hord⟩ := matchBook_ids o.id o.timestamp Side.sell b.instrument
      b.bids b.orders o.quantity b.next_trade_id
    constructor
    · show o.id ∉ queueIds (matchBook o.id o.timestamp Side.sell
        b.instrument b.bids b.orders o.quantity b.next_trade_id).levels ++ queueIds b.asks
      intro hmem
      rcases List.mem_append.mp hmem with h | h
      · refine hat (List.mem_append.mpr (Or.inl ?_))
        rw [hids]
        exact List.mem_append.mpr (Or.inr h)
      · exact hat (List.mem_append.mpr (Or.inr h))
    · show o.id ∉ mapKeys (matchBook o.id o.timestamp Side.sell
        b.instrument b.bids b.orders o.quantity b.next_trade_id).orders
      rw [hord]
      intro hmem
      exact hkeys (mem_mapKeys_eraseKeys_of hmem)

/-- Claim C2 witness: the amended statement applied to the concrete
crossing partial fill of the counterexample. -/
theorem C2_witness :
    bookC2.crosses aggC2 = true ∧ aggC2.id ∉ bookC2.restingIds ∧
      aggC2.id ∉ mapKeys bookC2.orders ∧
      (aggC2.id ∉ (bookC2.addOrder aggC2).1.restingIds ∧
        aggC2.id ∉ mapKeys (bookC2.addOrder aggC2).1.orders) :=
  ⟨by decide, by decide, by decide,
    C2_residual_is_discarded bookC2 aggC2 (by decide) (by decide) (by decide)⟩

/-- Claim C3 counterexample: in the reachable state where a resting SELL of
quantity 2 was half-filled by a MARKET BUY of 1, the queues hold total
quantity 1 while orders_by_id still records 2 — the two sums differ. -/
theorem C3_counterexample :
    queueQty bookC3.bids + queueQty bookC3.asks = 1 ∧
      ordersQty bookC3.orders = 2 := by
  decide

/-- Claim C3 (amended): the quantity sums can disagree (a partial fill
updates the queue entry but not orders_by_id), but the id SETS do agree:
for every state reachable by add_order and cancel_order calls whose
submitted orders carry pairwise-distinct ids, an id rests in the side
queues if and only if it is a key of orders_by_id. -/
theorem C3_resting_ids_match_index :
    ∀ (instr : String) (ops : List BookOp), (addIds ops).Nodup →
      ∀ i, i ∈ (runOps (emptyBook instr) ops).restingIds ↔
        i ∈ mapKeys (runOps (emptyBook instr) ops).orders := by
  intro instr ops hnd i
  have hfresh : ∀ j ∈ addIds ops, j ∉ (emptyBook instr).restingIds := by
    intro j _ hmem
    exact absurd hmem (by simp [emptyBook, OrderBook.restingIds, queueIds])
  have hwf := wf_runOps ops (emptyBook instr) (wf_emptyBook instr) hnd hfresh
  exact ⟨fun h => hwf.2.2.1 i h, fun h => hwf.2.2.2 i h⟩

/-- Claim C3 witness: the amended statement applied to the concrete
partial-fill trace of the counterexample at id 1. -/
theorem C3_witness :
    (addIds [BookOp.add ⟨1, "E", OrderType.limit, Side.sell, 100, 2, 1⟩,
      BookOp.add ⟨2, "E", OrderType.market, Side.buy, 0, 1, 2⟩]).Nodup ∧
    (1 ∈ (runOps (emptyBook "E")
        [BookOp.add ⟨1, "E", OrderType.limit, Side.sell, 100, 2, 1⟩,
          BookOp.add ⟨2, "E", OrderType.market, Side.buy, 0, 1, 2⟩]).restingIds ↔
      1 ∈ mapKeys (runOps (emptyBook "E")
        [BookOp.add ⟨1, "E", OrderType.limit, Side.sell, 100, 2, 1⟩,
          BookOp.add ⟨2, "E", OrderType.market, Side.buy, 0, 1, 2⟩]).orders) :=
  ⟨by decide, C3_resting_ids_match_index "E"
    [BookOp.add ⟨1, "E", OrderType.limit, Side.sell, 100, 2, 1⟩,
      BookOp.add ⟨2, "E", OrderType.market, Side.buy, 0, 1, 2⟩] (by decide) 1⟩

/-- Claim C6 counterexample: a quantity-0 LIMIT BUY at price 0 (the shape
of MarketMaker's cancellation intents) added to an empty book does not
leave the book unchanged — it is rested with quantity 0 in the bid queue
and recorded in the id index. -/
theorem C6_counterexample :
    ((emptyBook "E").addOrder ordC6).2 = [] ∧
      ((emptyBook "E").addOrder ordC6).1.bids = [(0, [ordC6])] ∧
      lookupKey ordC6.id ((emptyBook "E").addOrder ordC6).1.orders = some ordC6 := by
  decide

/-- Claim C6 (amended): a quantity-0 LIMIT order crosses nothing and emits
no trades; when its price satisfies the crossing test the book is left
unchanged, but otherwise the order IS rested: it is inserted into its side
queue and orders_by_id with quantity 0. -/
theorem C6_zero_quantity_limit :
    ∀ (b : OrderBook) (o : Order), o.type = OrderType.limit → o.quantity = 0 →
      (b.addOrder o).2 = [] ∧
        (b.crosses o = true → (b.addOrder o).1 = b) ∧
        (b.crosses o = false → (b.addOrder o).1 = b.insertLimitOrder o) := by
  intro b o ht hq
  rw [OrderBook.addOrder]
  by_cases hc : b.crosses o = true
  · rw [if_pos hc, matchOrder_zero b o hq]
    refine ⟨rfl, fun _ => rfl, fun h => ?_⟩
    rw [hc] at h
    cases h
  · rw [if_neg hc, if_pos ht]
    exact ⟨rfl, fun h => absurd h hc, fun _ => rfl⟩

/-- Claim C6 witness: the amended statement applied to the concrete
quantity-0 cancellation-intent order on the empty book. -/
theorem C6_witness :
    ordC6.type = OrderType.limit ∧ ordC6.quantity = 0 ∧
      (((emptyBook "E").addOrder ordC6).2 = [] ∧
        ((emptyBook "E").crosses ordC6 = true → ((emptyBook "E").addOrder ordC6).1 = emptyBook "E") ∧
        ((emptyBook "E").crosses ordC6 = false →
          ((emptyBook "E").addOrder ordC6).1 = (emptyBook "E").insertLimitOrder ordC6)) :=
  ⟨rfl, rfl, C6_zero_quantity_limit (emptyBook "E") ordC6 rfl rfl⟩

/-- Claim C5 counterexample: a quoting cycle in which both the bid and the
ask slot still hold fresh quotes at the prices the cycle would quote again
submits no order at all, yet `total_quotes_` is still incremented by 2. -/
theorem C5_counterexample :
    (mmC5.placeQuotes bookC5 1000).2 = [] ∧
      (mmC5.placeQuotes bookC5 1000).1.total_quotes = mmC5.total_quotes + 2 := by
  norm_num [MMState.placeQuotes, mmC5, bookC5, MMState.computeMidPrice,
    OrderBook.getBestBid, OrderBook.getBestAsk, MMState.cancelBidSlot,
    MMState.cancelAskSlot, MMState.placeBidSlot, MMState.placeAskSlot,
    cancelIfStale, lookupKey]

/-- Claim C5 (amended): every quoting cycle that reaches the
quote-placement step (risk pre-check passes and a mid-price exists)
increments `total_quotes_` by exactly 2, regardless of how many new quote
orders (0, 1, or 2) were submitted in that cycle. -/
theorem C5_total_quotes_always_plus_two :
    ∀ (s : MMState) (book : OrderBook) (now : Nat),
      ¬(s.realized_pnl ≤ s.max_loss ∨ s.inventory_limit < |s.inventory|) →
      ¬(MMState.computeMidPrice book < 0) →
      (s.placeQuotes book now).1.total_quotes = s.total_quotes + 2 := by
  intro s book now h1 h2
  rw [MMState.placeQuotes, if_neg h1, if_neg h2]
  show (MMState.placeAskSlot _ _ _ _).1.total_quotes + 2 = s.total_quotes + 2
  rw [placeAskSlot_total_quotes, placeBidSlot_total_quotes,
    cancelAskSlot_total_quotes, cancelBidSlot_total_quotes]

/-- Claim C5 witness: the amended statement applied to the concrete fresh
double-quote cycle of the counterexample. -/
theorem C5_witness :
    ¬(mmC5.realized_pnl ≤ mmC5.max_loss ∨ mmC5.inventory_limit < |mmC5.inventory|) ∧
      ¬(MMState.computeMidPrice bookC5 < 0) ∧
      (mmC5.placeQuotes bookC5 1000).1.total_quotes = mmC5.total_quotes + 2 :=
  ⟨by norm_num [mmC5],
    by norm_num [bookC5, MMState.computeMidPrice, OrderBook.getBestBid, OrderBook.getBestAsk],
    C5_total_quotes_always_plus_two mmC5 bookC5 1000 (by norm_num [mmC5])
      (by norm_num [bookC5, MMState.computeMidPrice, OrderBook.getBestBid, OrderBook.getBestAsk])⟩

/-- Claim C7: every trade emitted by addOrder carries the price of the
price level of the resting (passive) order it consumed — in a price-
coherent book the resting order's own price — and the aggressor's side;
the aggressor's price never sets a trade price. -/
theorem C7_trade_price_is_resting_price :
    ∀ (b : OrderBook) (o : Order), wellPriced b →
      ∀ t ∈ (b.addOrder o).2,
        ∃ r ∈ restingOf (if o.side = Side.buy then b.asks else b.bids),
          restingIdOf o.side t = r.id ∧ t.price = r.price ∧ t.side = o.side := by
  intro b o hwp t ht
  rw [OrderBook.addOrder] at ht
  by_cases hc : b.crosses o = true
  · rw [if_pos hc, OrderBook.matchOrder] at ht
    by_cases hs : o.side = Side.buy
    · rw [if_pos hs] at ht
      obtain ⟨l, hl, r, hr, hid, hp, hsd⟩ := matchBook_trades o.id o.timestamp Side.buy
        b.instrument b.asks b.orders o.quantity b.next_trade_id t ht
      refine ⟨r, ?_, ?_, ?_, ?_⟩
      · rw [if_pos hs]
        exact List.mem_flatMap.mpr ⟨l, hl, hr⟩
      · rw [hs]
        exact hid
      · rw [hp]
        exact (hwp.2 l hl r hr).symm
      · rw [hsd, hs]
    · rw [if_neg hs] at ht
      obtain ⟨l, hl, r, hr, hid, hp, hsd⟩ := matchBook_trades o.id o.timestamp Side.sell
        b.instrument b.bids b.orders o.quantity b.next_trade_id t ht
      refine ⟨r, ?_, ?_, ?_, ?_⟩
      · rw [if_neg hs]
        exact List.mem_flatMap.mpr ⟨l, hl, hr⟩
      · rw [side_eq_sell_of_ne hs]
        exact hid
      · rw [hp]
        exact (hwp.1 l hl r hr).symm
      · rw [hsd, side_eq_sell_of_ne hs]
  · rw [if_neg hc] at ht
    by_cases htp : o.type = OrderType.limit
    · rw [if_pos htp] at ht
      exact absurd ht (by simp)
    · rw [if_neg htp] at ht
      exact absurd ht (by simp)

/-- Claim C7 witness: applied to a MARKET BUY sweeping a well-priced book
with one resting ask. -/
theorem C7_witness :
    wellPriced bookC7 ∧ tradeC7 ∈ (bookC7.addOrder aggC7).2 ∧
      (∃ r ∈ restingOf (if aggC7.side = Side.buy then bookC7.asks else bookC7.bids),
        restingIdOf aggC7.side tradeC7 = r.id ∧ tradeC7.price = r.price ∧
          tradeC7.side = aggC7.side) :=
  ⟨by unfold wellPriced; decide, by decide,
    C7_trade_price_is_resting_price bookC7 aggC7 (by unfold wellPriced; decide)
      tradeC7 (by decide)⟩

/-- Claim C8: in a well-formed book, cancel_order(id) returns true iff id
is resting; on true the id is gone from both the side queues and the id
index and any emptied level has been dropped (no empty-queue level is ever
left behind); on false the book is unchanged. -/
theorem C8_cancelOrder_spec :
    ∀ (b : OrderBook) (id : Nat), wfB b →
      (((b.cancelOrder id).2 = true ↔ id ∈ b.restingIds) ∧
        ((b.cancelOrder id).2 = true →
          id ∉ (b.cancelOrder id).1.restingIds ∧
            id ∉ mapKeys (b.cancelOrder id).1.orders) ∧
        ((b.cancelOrder id).2 = false → (b.cancelOrder id).1 = b) ∧
        ((∀ l ∈ b.bids ++ b.asks, l.2 ≠ []) →
          ∀ l ∈ (b.cancelOrder id).1.bids ++ (b.cancelOrder id).1.asks, l.2 ≠ [])) := by
  intro b id hwf
  obtain ⟨hnd, hndk, h3, h4⟩ := hwf
  rw [OrderBook.cancelOrder]
  cases hcb : cancelLevels id b.bids with
  | some bids2 =>
    obtain ⟨A, B, hAB, hB2⟩ := cancelLevels_some hcb
    have horig : b.restingIds = A ++ id :: (B ++ queueIds b.asks) := by
      rw [OrderBook.restingIds, hAB]
      simp
    have hid_in : id ∈ b.restingIds := by
      rw [horig]
      exact mem_middle_iff.mpr (Or.inl rfl)
    have hnd2 := horig ▸ hnd
    rw [List.nodup_middle, List.nodup_cons] at hnd2
    refine ⟨⟨fun _ => hid_in, fun _ => rfl⟩, fun _ => ⟨?_, ?_⟩, fun h => ?_, fun hne => ?_⟩
    · show id ∉ queueIds bids2 ++ queueIds b.asks
      rw [hB2, List.append_assoc]
      exact hnd2.1
    · show id ∉ mapKeys (eraseKey id b.orders)
      intro hmem
      exact ((mem_mapKeys_eraseKey hndk).mp hmem).2 rfl
    · cases h
    · intro l hl
      rcases List.mem_append.mp hl with hl2 | hl2
      · exact cancelLevels_keeps_nonempty hcb
          (fun l2 hl2 => hne l2 (List.mem_append.mpr (Or.inl hl2))) l hl2
      · exact hne l (List.mem_append.mpr (Or.inr hl2))
  | none =>
    cases hca : cancelLevels id b.asks with
    | some asks2 =>
      obtain ⟨A, B, hAB, hB2⟩ := cancelLevels_some hca
      have horig : b.restingIds = (queueIds b.bids ++ A) ++ id :: B := by
        rw [OrderBook.restingIds, hAB]
        simp
      have hid_in : id ∈ b.restingIds := by
        rw [horig]
        exact mem_middle_iff.mpr (Or.inl rfl)
      have hnd2 := horig ▸ hnd
      rw [List.nodup_middle, List.nodup_cons] at hnd2
      refine ⟨⟨fun _ => hid_in, fun _ => rfl⟩, fun _ => ⟨?_, ?_⟩, fun h => ?_, fun hne => ?_⟩
      · show id ∉ queueIds b.bids ++ queueIds asks2
        rw [hB2, ← List.append_assoc]
        exact hnd2.1
      · show id ∉ mapKeys (eraseKey id b.orders)
        intro hmem
        exact ((mem_mapKeys_eraseKey hndk).mp hmem).2 rfl
      · cases h
      · intro l hl
        rcases List.mem_append.mp hl with hl2 | hl2
        · exact hne l (List.mem_append.mpr (Or.inl hl2))
        · exact cancelLevels_keeps_nonempty hca
            (fun l2 hl2 => hne l2 (List.mem_append.mpr (Or.inr hl2))) l hl2
    | none =>
      have hnot : id ∉ b.restingIds := by
        rw [OrderBook.restingIds]
        intro hmem
        rcases List.mem_append.mp hmem with h | h
        · exact cancelLevels_none hcb h
        · exact cancelLevels_none hca h
      refine ⟨⟨fun h => ?_, fun h => absurd h hnot⟩, fun h => ?_, fun _ => rfl, fun hne => hne⟩
      · cases h
      · cases h

/-- Claim C8 witness: applied to a two-order book and the resting bid's
id. -/
theorem C8_witness :
    wfB bookC8 ∧
      (((bookC8.cancelOrder 1).2 = true ↔ 1 ∈ bookC8.restingIds) ∧
        ((bookC8.cancelOrder 1).2 = true →
          1 ∉ (bookC8.cancelOrder 1).1.restingIds ∧
            1 ∉ mapKeys (bookC8.cancelOrder 1).1.orders) ∧
        ((bookC8.cancelOrder 1).2 = false → (bookC8.cancelOrder 1).1 = bookC8) ∧
        ((∀ l ∈ bookC8.bids ++ bookC8.asks, l.2 ≠ []) →
          ∀ l ∈ (bookC8.cancelOrder 1).1.bids ++ (bookC8.cancelOrder 1).1.asks, l.2 ≠ [])) :=
  ⟨by unfold wfB; decide, C8_cancelOrder_spec bookC8 1 (by unfold wfB; decide)⟩

/-- Claim C10: MarketMaker.onTrade counts every trade of its symbol in
total_trades (the increment happens before any ownership check), while
total_quantity moves only on fills of its own active orders; hence a state
with positive total_trades and averageTradeSize 0 is reachable by a single
foreign trade. -/
theorem C10_total_trades_counts_all_symbol_trades :
    (∀ (s : MMState) (t : Trade), t.instrument = s.symbol →
      ((s.onTrade t).total_trades = s.total_trades + 1 ∧
        (lookupKey t.buy_order_id s.active_orders = none →
          lookupKey t.sell_order_id s.active_orders = none →
          (s.onTrade t).total_quantity = s.total_quantity))) ∧
      mmC10.averageTradeSize = 0 ∧ 0 < mmC10.total_trades := by
  refine ⟨?_, ?_, ?_⟩
  · intro s t hi
    simp only [MMState.onTrade]
    rw [if_neg (by simp [hi])]
    constructor
    · repeat' first
        | rfl
        | split
    · intro hb hs2
      simp only [hb, hs2]
      split <;> rfl
  · norm_num [mmC10, MMState.onTrade, tradeC10, MMState.init, MMState.start,
      lookupKey, MMState.averageTradeSize]
  · norm_num [mmC10, MMState.onTrade, tradeC10, MMState.init, MMState.start, lookupKey]

/-- Claim C10 witness: the universal part applied to a fresh MarketMaker
and a trade between two foreign orders on its symbol. -/
theorem C10_witness :
    tradeC10.instrument = ((MMState.init "E" (-100)).start).symbol ∧
      ((((MMState.init "E" (-100)).start).onTrade tradeC10).total_trades =
          ((MMState.init "E" (-100)).start).total_trades + 1 ∧
        (lookupKey tradeC10.buy_order_id ((MMState.init "E" (-100)).start).active_orders = none →
          lookupKey tradeC10.sell_order_id ((MMState.init "E" (-100)).start).active_orders = none →
          (((MMState.init "E" (-100)).start).onTrade tradeC10).total_quantity =
            ((MMState.init "E" (-100)).start).total_quantity)) :=
  ⟨rfl, C10_total_trades_counts_all_symbol_trades.1 ((MMState.init "E" (-100)).start) tradeC10 rfl⟩

/-- Claim C4: for each strategy started fresh, once risk_violated has
become true after some event prefix of the lifetime, it is still true
after any further events (worker iterations run placeQuotes/evaluation
only while running_, trade reports, market data): the latch is never
reset within a lifetime. -/
theorem C4_risk_latch_is_monotone :
    (∀ (sym : String) (ml : ℚ) (es1 es2 : List MMEvent),
      (((MMState.init sym ml).start).run es1).risk_violated = true →
      (((MMState.init sym ml).start).run (es1 ++ es2)).risk_violated = true) ∧
    (∀ (sym : String) (ml : ℚ) (es1 es2 : List MomEvent),
      (((MomState.init sym ml).start).run es1).risk_violated = true →
      (((MomState.init sym ml).start).run (es1 ++ es2)).risk_violated = true) ∧
    (∀ (a1 a2 : String) (sp : ℚ) (osz : ℤ) (ml : ℚ) (es1 es2 : List ArbEvent),
      (((ArbState.init a1 a2 sp osz ml).start).run es1).1.risk_violated = true →
      (((ArbState.init a1 a2 sp osz ml).start).run (es1 ++ es2)).1.risk_violated = true) := by
  refine ⟨?_, ?_, ?_⟩
  · intro sym ml es1 es2 h
    rw [mm_run_append]
    have hinv0 : ((MMState.init sym ml).start).risk_violated = true →
        ((MMState.init sym ml).start).running = false := by
      intro h2
      exact absurd h2 (by simp [MMState.init, MMState.start])
    exact mm_run_latch es2 _ (mm_run_preserves_inv es1 _ hinv0) h
  · intro sym ml es1 es2 h
    rw [mom_run_append]
    exact mom_run_latch es2 _ h
  · intro a1 a2 sp osz ml es1 es2 h
    rw [arb_run_append]
    exact arb_run_latch es2 _ h

/-- Claim C4 witness: each strategy, latched by one losing (or
risk-breaching) trade, stays latched across a further event. -/
theorem C4_witness :
    (((MMState.init "A" 0).start).run
        ([MMEvent.trade tradeC4mm] ++
          [MMEvent.marketData ⟨9, "A", OrderType.limit, Side.buy, 1, 1, 1⟩])).risk_violated = true ∧
    (((MomState.init "A" (-1)).start).run
        ([MomEvent.trade tradeC4mom] ++ [MomEvent.workerIter 0])).risk_violated = true ∧
    (((ArbState.init "A" "B" 0 10 (-1)).start).run
        ([ArbEvent.trade tradeC4arb] ++ [ArbEvent.trade tradeC4arb])).1.risk_violated = true :=
  ⟨C4_risk_latch_is_monotone.1 "A" 0 [MMEvent.trade tradeC4mm]
      [MMEvent.marketData ⟨9, "A", OrderType.limit, Side.buy, 1, 1, 1⟩]
      (by norm_num [MMState.run, MMState.step, MMState.onTrade, MMState.init,
        MMState.start, tradeC4mm, lookupKey]),
    C4_risk_latch_is_monotone.2.1 "A" (-1) [MomEvent.trade tradeC4mom] [MomEvent.workerIter 0]
      (by norm_num [MomState.run, MomState.step, MomState.onTrade, MomState.init,
        MomState.start, tradeC4mom]),
    C4_risk_latch_is_monotone.2.2 "A" "B" 0 10 (-1) [ArbEvent.trade tradeC4arb]
      [ArbEvent.trade tradeC4arb]
      (by norm_num [ArbState.run, ArbState.step, ArbState.onTrade, ArbState.init,
        ArbState.start, tradeC4arb, lookupKey, insertKey, getKeyD,
        show ¬(Side.sell = Side.buy) by decide])⟩

/-- Claim C9: the ArbitrageTrader's behavior is independent of the
constructor's spread_threshold: two instances differing only in that field
produce, on any identical event sequence, identical submitted-order
streams and identical final positions, realized_pnl and risk_violated
(the opportunity rule uses the hardcoded 0.05 floor). -/
theorem C9_spread_threshold_is_unused :
    ∀ (s : ArbState) (x : ℚ) (es : List ArbEvent),
      ((s.setSpread x).run es).2 = (s.run es).2 ∧
        ((s.setSpread x).run es).1.positions = (s.run es).1.positions ∧
        ((s.setSpread x).run es).1.realized_pnl = (s.run es).1.realized_pnl ∧
        ((s.setSpread x).run es).1.risk_violated = (s.run es).1.risk_violated := by
  intro s x es
  rw [arb_run_spread]
  exact ⟨rfl, rfl, rfl, rfl⟩

end Tradeit
